import Mathlib

/-!
# bitcrusherr~ : the per-block sample-rate reducer

A shallow embedding of `bitcrusherr_tilde_perform` (src/bitcrusherr~.c) and of the
object it mutates (`t_bitcrusherr_tilde`, src/bitcrusherr~.h).

Modelling decisions

* Audio samples (`t_sample`) are only ever copied by the routine, never computed
  with; the one constant it stores is `0`.  The development is therefore generic in
  the sample type `α`, which only needs a zero.
* The reduction factor is a C `float`.  A float is either a finite value, which is a
  rational number, or an infinity, or a NaN: `t_float`.  `roundf` is exact on floats
  (the nearest integer of a float is a float), so it is modelled exactly.  The
  theorems hold for every rational, hence for every finite float; the concrete
  factors used below (0, 3, -3, -1/4, -5/2, 2147483648, -2147483648) are all
  floats.
* `int` is the 32-bit machine integer.  The C standard gives no result to the
  conversion `(int) r` when the integral part of `r` is not representable (and none
  for an infinity or a NaN), and none to `abs (INT_MIN)`; those results are `none`.
  The compiled routine computes a batch size there all the same: `batch_size_machine`
  is line 76 of the x86-64 build, where both operations yield `INT_MIN`, and
  `bitcrusherr_tilde_perform_machine` is the routine run with it.  The two agree
  wherever C defines line 76 (`perform_machine_eq`); the properties that speak of
  every factor are stated on the compiled routine.
* `t_int` counters and the carry count are mathematical integers.  The block length
  reaches the routine from the `int` field `s_n` of a Pd signal, so no counter of the
  routine leaves the range of its C type.
* The input block is a list `in1`; `n` is its length.  The pointer `in1` of the C
  code is the offset `Cursor.in1` into that list, the pointer `out` is the list of
  the samples written so far.
* Between two calls the host may store any float in `f_reduction_factor` (the float
  inlet of `bitcrusherr_tilde_new`); `perform_calls` is such a sequence of calls.
* `perform_block` computes lines 107 and 110 with the total operations `Int.tdiv` and
  `Int.tmod`; `perform_block_checked` is the same routine with the division by zero as
  a failure, and agrees with it for every non-zero divisor.
-/

namespace Bitcrusherr

/-! ## The C `float` and `int` operations used on line 76 -/

/-- A value of the C type `float` (Pd's `t_sample`, `t_floatarg`): a finite value,
an infinity with its sign, or a NaN. -/
inductive t_float where
  | finite (q : ℚ)
  | inf (negative : Bool)
  | nan
  deriving DecidableEq

/-- Largest value of a C `int`. -/
def INT_MAX : Int := 2147483647

/-- Smallest value of a C `int`. -/
def INT_MIN : Int := -2147483648

/-- The nearest integer of a rational, halfway cases rounded away from zero. -/
def round_half_away (q : ℚ) : Int :=
  if 0 ≤ q then ⌊q + 1 / 2⌋ else -⌊-q + 1 / 2⌋

/-- C `roundf`: the nearest integer, halfway cases away from zero; infinities and
NaN are returned unchanged. -/
def roundf : t_float → t_float
  | .finite q => .finite (round_half_away q : ℚ)
  | .inf s => .inf s
  | .nan => .nan

/-- The C conversion `(int) r`: the fractional part is discarded (truncation toward
zero); there is no result when the integral part is not representable in `int`, nor
for an infinity or a NaN. -/
def float_to_int : t_float → Option Int
  | .finite q =>
    let t : Int := if 0 ≤ q then ⌊q⌋ else ⌈q⌉
    if INT_MIN ≤ t ∧ t ≤ INT_MAX then some t else none
  | .inf _ => none
  | .nan => none

/-- C `abs` on `int`: no result when the absolute value is not representable. -/
def int_abs (v : Int) : Option Int :=
  if v = INT_MIN then none else some (if v < 0 then -v else v)

/-- Lines 76-84 of `bitcrusherr_tilde_perform`:
`int batch_size = abs((int)(roundf(x->f_reduction_factor)));`
followed by `if (batch_size == 0) batch_size = 1;`. -/
def batch_size (f_reduction_factor : t_float) : Option Int :=
  (float_to_int (roundf f_reduction_factor)).bind fun r =>
    (int_abs r).map fun a => if a = 0 then 1 else a

/-- The C unary minus on a `float`: exact on finite values, it swaps the infinities
and leaves a NaN a NaN. -/
def float_neg : t_float → t_float
  | .finite q => .finite (-q)
  | .inf s => .inf (!s)
  | .nan => .nan

/-- The C operators `a / b` and `a % b` on integers, as the routine uses them on lines
107 and 110: quotient truncated toward zero and its remainder; no result when the
divisor is 0. -/
def c_div_mod (a b : Int) : Option (Int × Int) :=
  if b = 0 then none else some (a.tdiv b, a.tmod b)

/-! ## Line 76 as the compiled routine computes it

Where C gives line 76 no value the compiled routine still computes one.  The
definitions below are the x86-64 build: the conversion instruction (`cvttss2si`)
returns `INT_MIN`, its "integer indefinite" value, for a NaN, an infinity and every
value outside the range of `int`, and `abs` negates in two's complement, so that
`abs (INT_MIN)` is `INT_MIN`. -/

/-- The conversion `(int) r` as compiled: the truncated value when an `int` holds it,
`INT_MIN` otherwise. -/
def float_to_int_machine : t_float → Int
  | .finite q =>
    let t : Int := if 0 ≤ q then ⌊q⌋ else ⌈q⌉
    if INT_MIN ≤ t ∧ t ≤ INT_MAX then t else INT_MIN
  | .inf _ => INT_MIN
  | .nan => INT_MIN

/-- A mathematical integer reduced to the 32-bit two's-complement `int`. -/
def wrap_int (v : Int) : Int := (v + 2147483648) % 4294967296 - 2147483648

/-- The function `abs` on `int` as compiled: the negation of a negative argument wraps. -/
def int_abs_machine (v : Int) : Int := wrap_int (if v < 0 then -v else v)

/-- Lines 76-84 as compiled: total, and equal to `batch_size` wherever that is defined. -/
def batch_size_machine (f_reduction_factor : t_float) : Int :=
  let a := int_abs_machine (float_to_int_machine (roundf f_reduction_factor))
  if a = 0 then 1 else a

/-! ## The object and the block routine -/

/-- The fields of `t_bitcrusherr_tilde` that the perform routine reads or writes.
(`x_obj`, `f`, `x_in2` and `x_out` belong to the Pd host glue.) -/
structure t_bitcrusherr_tilde (α : Type) where
  f_reduction_factor : t_float
  buffer_carry_sample_value : α
  buffer_carry_sample_count : Int

/-- The locals of the routine that move while it runs: the read pointer `in1` as an
offset into the input block, the samples stored through `out` so far, and
`remaining_samples`. -/
structure Cursor (α : Type) where
  in1 : Nat
  out : List α
  remaining_samples : Int

/-- The loop `for (i = 0; i < bound; ++i) body`, for a body that touches neither `i`
nor `bound`: the body runs `bound` times, not at all when `bound ≤ 0`. -/
def for_loop {σ : Type} (bound : Int) (body : σ → σ) (s : σ) : σ :=
  body^[bound.toNat] s

section Definitions

variable {α : Type} [Zero α]

/-- The dereference `*in1` at offset `p` of the input block. -/
def deref (inp : List α) (p : Nat) : α := inp.getD p 0

/-- Body of the carry loop, lines 96-99. -/
def carry_step (buffer_carry_sample_value : α) (s : Cursor α) : Cursor α :=
  { in1 := s.in1 + 1
    out := s.out ++ [buffer_carry_sample_value]
    remaining_samples := s.remaining_samples - 1 }

/-- Body of the two filling loops, lines 125-127 and 139-141. -/
def fill_step (current_sample : α) (s : Cursor α) : Cursor α :=
  { s with in1 := s.in1 + 1, out := s.out ++ [current_sample] }

/-- Body of the loop over the full runs, lines 113-128. -/
def run_step (inp : List α) (batch_size : Int) (s : Cursor α) : Cursor α :=
  let current_sample := deref inp s.in1
  for_loop batch_size (fill_step current_sample) s

/-- Lines 85-171 of `bitcrusherr_tilde_perform`, for the batch size computed on lines
76-84: the new object and the output block. -/
def perform_block (batch_size : Int) (x : t_bitcrusherr_tilde α) (inp : List α) :
    t_bitcrusherr_tilde α × List α :=
  let n : Int := inp.length
  let s0 : Cursor α := { in1 := 0, out := [], remaining_samples := n }
  let current_buffer_carry_sample_count : Int :=
    if x.buffer_carry_sample_count ≤ n then x.buffer_carry_sample_count else n
  let s1 := for_loop current_buffer_carry_sample_count (carry_step x.buffer_carry_sample_value) s0
  if s1.remaining_samples > 0 then
    let batch_count : Int := s1.remaining_samples.tdiv batch_size
    let partial_buffer_samples : Int := s1.remaining_samples.tmod batch_size
    let s2 := for_loop batch_count (run_step inp batch_size) s1
    if partial_buffer_samples > 0 then
      let current_sample := deref inp s2.in1
      let s3 := for_loop partial_buffer_samples (fill_step current_sample) s2
      ({ x with buffer_carry_sample_count := batch_size - partial_buffer_samples
                buffer_carry_sample_value := current_sample }, s3.out)
    else
      ({ x with buffer_carry_sample_count := 0, buffer_carry_sample_value := 0 }, s2.out)
  else
    if x.buffer_carry_sample_count > n then
      ({ x with buffer_carry_sample_count := x.buffer_carry_sample_count - n }, s1.out)
    else
      ({ x with buffer_carry_sample_count := 0, buffer_carry_sample_value := 0 }, s1.out)

/-- The routine `bitcrusherr_tilde_perform` on the object `x` and the input block
`in1`: the object after the call and the output block.  There is no result when
line 76 has none. -/
def bitcrusherr_tilde_perform (x : t_bitcrusherr_tilde α) (in1 : List α) :
    Option (t_bitcrusherr_tilde α × List α) :=
  (batch_size x.f_reduction_factor).map fun b => perform_block b x in1

/-- A sequence of calls of the routine on consecutive blocks, each starting from the
object the previous one left; the output blocks are concatenated. -/
def perform_stream (x : t_bitcrusherr_tilde α) : List (List α) →
    Option (t_bitcrusherr_tilde α × List α)
  | [] => some (x, [])
  | blk :: rest =>
    (bitcrusherr_tilde_perform x blk).bind fun r =>
      (perform_stream r.1 rest).map fun r2 => (r2.1, r.2 ++ r2.2)

/-- The constructor `bitcrusherr_tilde_new`, lines 41-50, on the fields of the model:
the argument is stored as the reduction factor, the carry count and value are 0. -/
def bitcrusherr_tilde_new (reduction_factor : t_float) : t_bitcrusherr_tilde α :=
  { f_reduction_factor := reduction_factor
    buffer_carry_sample_value := 0
    buffer_carry_sample_count := 0 }

/-- A life of the object: a sequence of calls of the routine, the host storing a
reduction factor of its choice (through the float inlet) before each call and passing
a block of its choice.  The result is the object after the last call. -/
def perform_calls (x : t_bitcrusherr_tilde α) : List (t_float × List α) →
    Option (t_bitcrusherr_tilde α)
  | [] => some x
  | c :: rest =>
    (bitcrusherr_tilde_perform { x with f_reduction_factor := c.1 } c.2).bind fun r =>
      perform_calls r.1 rest

/-- Lines 85-171 once more, with the division and the modulo of lines 107 and 110 made
fallible: there is no result when they are reached with a zero divisor. -/
def perform_block_checked (batch_size : Int) (x : t_bitcrusherr_tilde α) (inp : List α) :
    Option (t_bitcrusherr_tilde α × List α) :=
  let n : Int := inp.length
  let s0 : Cursor α := { in1 := 0, out := [], remaining_samples := n }
  let current_buffer_carry_sample_count : Int :=
    if x.buffer_carry_sample_count ≤ n then x.buffer_carry_sample_count else n
  let s1 := for_loop current_buffer_carry_sample_count (carry_step x.buffer_carry_sample_value) s0
  if s1.remaining_samples > 0 then
    (c_div_mod s1.remaining_samples batch_size).map fun dm =>
      let batch_count : Int := dm.1
      let partial_buffer_samples : Int := dm.2
      let s2 := for_loop batch_count (run_step inp batch_size) s1
      if partial_buffer_samples > 0 then
        let current_sample := deref inp s2.in1
        let s3 := for_loop partial_buffer_samples (fill_step current_sample) s2
        ({ x with buffer_carry_sample_count := batch_size - partial_buffer_samples
                  buffer_carry_sample_value := current_sample }, s3.out)
      else
        ({ x with buffer_carry_sample_count := 0, buffer_carry_sample_value := 0 }, s2.out)
  else
    if x.buffer_carry_sample_count > n then
      some ({ x with buffer_carry_sample_count := x.buffer_carry_sample_count - n }, s1.out)
    else
      some ({ x with buffer_carry_sample_count := 0, buffer_carry_sample_value := 0 }, s1.out)

/-- The routine `bitcrusherr_tilde_perform` as compiled: lines 76-84 always yield a
batch size, and lines 85-171 run with it. -/
def bitcrusherr_tilde_perform_machine (x : t_bitcrusherr_tilde α) (in1 : List α) :
    t_bitcrusherr_tilde α × List α :=
  perform_block (batch_size_machine x.f_reduction_factor) x in1

/-- A life of the object under the compiled routine: as `perform_calls`, the host
storing a factor before each call. -/
def perform_calls_machine (x : t_bitcrusherr_tilde α) : List (t_float × List α) →
    t_bitcrusherr_tilde α
  | [] => x
  | c :: rest =>
    perform_calls_machine
      (bitcrusherr_tilde_perform_machine { x with f_reduction_factor := c.1 } c.2).1 rest

/-! ## Closed forms

These are not part of the embedding: `perform_block_eq` proves that the routine
computes them, and the lemmas after it reason on them. -/

/-- The sample the routine stores at offset `i` of the output block, when the first
`k` positions are carried and the batch size is `b`. -/
def expected (k : Nat) (v : α) (b : Nat) (inp : List α) (i : Nat) : α :=
  if i < k then v else deref inp (k + b * ((i - k) / b))

/-- The carried positions of a call: `current_buffer_carry_sample_count`, as a
natural number. -/
def carried (x : t_bitcrusherr_tilde α) (inp : List α) : Nat :=
  min x.buffer_carry_sample_count.toNat inp.length

/-- The object a call leaves, for a positive batch size `b` (first component of
`perform_block_eq`). -/
def next_object (b : Nat) (x : t_bitcrusherr_tilde α) (inp : List α) : t_bitcrusherr_tilde α :=
  if carried x inp < inp.length then
    if 0 < (inp.length - carried x inp) % b then
      { x with
        buffer_carry_sample_count := (b : Int) - ((inp.length - carried x inp) % b : Nat)
        buffer_carry_sample_value :=
          deref inp (carried x inp + (inp.length - carried x inp) / b * b) }
    else { x with buffer_carry_sample_count := 0, buffer_carry_sample_value := 0 }
  else
    if x.buffer_carry_sample_count > inp.length then
      { x with buffer_carry_sample_count := x.buffer_carry_sample_count - inp.length }
    else { x with buffer_carry_sample_count := 0, buffer_carry_sample_value := 0 }

/-- The batch size in the words of the specification, `max(1, round(|factor|))`: the
absolute value is taken first, then rounded half away from zero, with no machine
integer in between. -/
def spec_batch_size (q : ℚ) : Int := max 1 (round_half_away |q|)

end Definitions

/-! ## The batch size -/

theorem round_half_away_neg (q : ℚ) : round_half_away (-q) = -round_half_away q := by
  unfold round_half_away
  rcases lt_trichotomy q 0 with h | h | h
  · have h1 : 0 ≤ -q := by linarith
    have h2 : ¬ 0 ≤ q := by linarith
    simp [h1, h2]
  · subst h
    have h0 : ⌊(2 : ℚ)⁻¹⌋ = 0 := by rw [Int.floor_eq_iff]; norm_num
    simp [h0]
  · have h1 : ¬ 0 ≤ -q := by linarith
    have h2 : 0 ≤ q := by linarith
    simp [h1, h2]

theorem round_half_away_nonneg {q : ℚ} (h : 0 ≤ q) : 0 ≤ round_half_away q := by
  unfold round_half_away
  rw [if_pos h]
  exact Int.floor_nonneg.mpr (by linarith)

theorem round_half_away_abs (q : ℚ) : round_half_away |q| = |round_half_away q| := by
  rcases le_total 0 q with h | h
  · rw [abs_of_nonneg h, abs_of_nonneg (round_half_away_nonneg h)]
  · have h1 : 0 ≤ round_half_away (-q) := round_half_away_nonneg (by linarith)
    rw [round_half_away_neg] at h1
    rw [abs_of_nonpos h, round_half_away_neg, abs_of_nonpos (by linarith)]

theorem float_to_int_intCast (z : Int) :
    float_to_int (.finite (z : ℚ)) = if INT_MIN ≤ z ∧ z ≤ INT_MAX then some z else none := by
  simp [float_to_int]

theorem int_abs_eq (v : Int) : int_abs v = if v = INT_MIN then none else some |v| := by
  unfold int_abs
  by_cases h : v = INT_MIN
  · simp [h]
  · rw [if_neg h, if_neg h]
    by_cases h0 : v < 0
    · rw [if_pos h0, abs_of_neg h0]
    · rw [if_neg h0, abs_of_nonneg (by omega)]

/-- The batch size of a finite factor, in closed form. -/
theorem batch_size_finite (q : ℚ) :
    batch_size (.finite q) =
      if INT_MIN < round_half_away q ∧ round_half_away q ≤ INT_MAX
      then some (max 1 |round_half_away q|) else none := by
  unfold batch_size
  rw [roundf, float_to_int_intCast]
  by_cases h : INT_MIN ≤ round_half_away q ∧ round_half_away q ≤ INT_MAX
  · rw [if_pos h, Option.some_bind, int_abs_eq]
    by_cases h2 : round_half_away q = INT_MIN
    · have : ¬ (INT_MIN < round_half_away q ∧ round_half_away q ≤ INT_MAX) := by
        rw [h2]; simp
      rw [if_pos h2, if_neg this]; rfl
    · have h3 : INT_MIN < round_half_away q ∧ round_half_away q ≤ INT_MAX :=
        ⟨lt_of_le_of_ne h.1 (Ne.symm h2), h.2⟩
      rw [if_neg h2, if_pos h3, Option.map_some']
      congr 1
      by_cases h4 : |round_half_away q| = 0
      · rw [if_pos h4, h4]; rfl
      · rw [if_neg h4]
        have := abs_nonneg (round_half_away q)
        omega
  · have h3 : ¬ (INT_MIN < round_half_away q ∧ round_half_away q ≤ INT_MAX) := by
      intro h3; exact h ⟨le_of_lt h3.1, h3.2⟩
    rw [if_neg h, if_neg h3]; rfl

/-- Whenever line 76 has a result, the batch size is at least 1 and fits an `int`. -/
theorem batch_size_bounds {f : t_float} {b : Int} (h : batch_size f = some b) :
    1 ≤ b ∧ b ≤ INT_MAX := by
  cases f with
  | finite q =>
    rw [batch_size_finite] at h
    split at h
    · rename_i hr
      simp only [Option.some.injEq] at h
      subst h
      refine ⟨le_max_left _ _, ?_⟩
      simp only [INT_MIN, INT_MAX] at hr ⊢
      rcases abs_cases (round_half_away q) with ⟨h1, _⟩ | ⟨h1, _⟩ <;> omega
    · simp at h
  | inf s => simp [batch_size, roundf, float_to_int] at h
  | nan => simp [batch_size, roundf, float_to_int] at h

/-! ## The loops -/

section Loops

variable {α : Type}

theorem carry_loop (v : α) (m : Nat) (s : Cursor α) :
    (carry_step v)^[m] s =
      { in1 := s.in1 + m, out := s.out ++ List.replicate m v,
        remaining_samples := s.remaining_samples - m } := by
  induction m with
  | zero => simp
  | succ m ih =>
    rw [Function.iterate_succ_apply', ih]
    simp only [carry_step, List.append_assoc, List.replicate_succ', Nat.cast_add, Nat.cast_one]
    congr 1
    omega

theorem fill_loop (v : α) (m : Nat) (s : Cursor α) :
    (fill_step v)^[m] s =
      { in1 := s.in1 + m, out := s.out ++ List.replicate m v,
        remaining_samples := s.remaining_samples } := by
  induction m with
  | zero => simp
  | succ m ih =>
    rw [Function.iterate_succ_apply', ih]
    simp only [fill_step, List.append_assoc, List.replicate_succ']
    rfl

theorem map_range_add (f : Nat → α) (len b : Nat) (a : α) (h : ∀ t, t < b → f (len + t) = a) :
    (List.range (len + b)).map f = (List.range len).map f ++ List.replicate b a := by
  induction b with
  | zero => simp
  | succ b ih =>
    rw [← Nat.add_assoc, List.range_succ, List.map_append, ih (fun t ht => h t (by omega)),
      List.replicate_succ', List.map_singleton, h b (by omega), List.append_assoc]

theorem map_range_append (f : Nat → α) (g h : Nat → α) (a c : Nat)
    (hl : ∀ i, i < a → f i = g i) (hr : ∀ j, j < c → f (a + j) = h j) :
    (List.range (a + c)).map f = (List.range a).map g ++ (List.range c).map h := by
  rw [List.range_add, List.map_append, List.map_map]
  congr 1
  · exact List.map_congr_left (fun i hi => hl i (List.mem_range.mp hi))
  · exact List.map_congr_left (fun j hj => hr j (List.mem_range.mp hj))

theorem carried_mk (f : t_float) (v : α) (cn : Nat) (inp : List α) :
    carried ({ f_reduction_factor := f, buffer_carry_sample_value := v,
               buffer_carry_sample_count := (cn : Int) } : t_bitcrusherr_tilde α) inp =
      min cn inp.length := by
  simp [carried]

end Loops

section Block

variable {α : Type} [Zero α]

theorem expected_run (k : Nat) (v : α) (b : Nat) (inp : List α) (hb : 0 < b) (j t : Nat)
    (ht : t < b) : expected k v b inp (k + j * b + t) = deref inp (k + j * b) := by
  unfold expected
  have h1 : ¬ (k + j * b + t < k) := by omega
  rw [if_neg h1]
  have h2 : k + j * b + t - k = t + b * j := by rw [Nat.mul_comm]; omega
  rw [h2, Nat.add_mul_div_left _ _ hb, Nat.div_eq_of_lt ht, Nat.zero_add, Nat.mul_comm]

theorem run_loop (inp : List α) (k : Nat) (v : α) (b : Nat) (hb : 0 < b) (r : Int) (m : Nat) :
    (run_step inp (b : Int))^[m]
        { in1 := k, out := (List.range k).map (expected k v b inp), remaining_samples := r } =
      { in1 := k + m * b, out := (List.range (k + m * b)).map (expected k v b inp),
        remaining_samples := r } := by
  induction m with
  | zero => simp
  | succ m ih =>
    rw [Function.iterate_succ_apply', ih]
    simp only [run_step, for_loop, Int.toNat_ofNat, fill_loop]
    have e : k + (m + 1) * b = k + m * b + b := by rw [Nat.add_mul]; omega
    rw [e, map_range_add _ _ _ _ (fun t ht => expected_run k v b inp hb m t ht)]

theorem replicate_eq_expected (k : Nat) (v : α) (b : Nat) (inp : List α) :
    List.replicate k v = (List.range k).map (expected k v b inp) := by
  have h := map_range_add (expected k v b inp) 0 k v
    (fun t ht => by simp [expected, ht])
  simpa using h.symm

/-- Closed form of the block routine for a positive batch size. -/
theorem perform_block_eq (b : Nat) (hb : 0 < b) (x : t_bitcrusherr_tilde α) (inp : List α) :
    perform_block (b : Int) x inp =
      (if carried x inp < inp.length then
          if 0 < (inp.length - carried x inp) % b then
            { x with
              buffer_carry_sample_count := (b : Int) - ((inp.length - carried x inp) % b : Nat)
              buffer_carry_sample_value :=
                deref inp (carried x inp + (inp.length - carried x inp) / b * b) }
          else { x with buffer_carry_sample_count := 0, buffer_carry_sample_value := 0 }
        else
          if x.buffer_carry_sample_count > inp.length then
            { x with buffer_carry_sample_count := x.buffer_carry_sample_count - inp.length }
          else { x with buffer_carry_sample_count := 0, buffer_carry_sample_value := 0 },
       (List.range inp.length).map
          (expected (carried x inp) x.buffer_carry_sample_value b inp)) := by
  have hk : carried x inp ≤ inp.length := Nat.min_le_right _ _
  have hcur : (if x.buffer_carry_sample_count ≤ (inp.length : Int)
      then x.buffer_carry_sample_count else (inp.length : Int)).toNat = carried x inp := by
    unfold carried
    split <;> omega
  unfold perform_block
  simp only [for_loop, hcur, carry_loop, List.nil_append, Nat.zero_add]
  rw [replicate_eq_expected (carried x inp) x.buffer_carry_sample_value b inp]
  by_cases hlt : carried x inp < inp.length
  · have hrem : (inp.length : Int) - (carried x inp : Int) =
        ((inp.length - carried x inp : Nat) : Int) := by omega
    have hpos : (inp.length : Int) - (carried x inp : Int) > 0 := by omega
    rw [if_pos hpos, if_pos hlt, hrem, ← Int.ofNat_tdiv, ← Int.ofNat_tmod]
    simp only [Int.toNat_ofNat, run_loop inp _ _ b hb]
    have hsplit : carried x inp + (inp.length - carried x inp) / b * b +
        (inp.length - carried x inp) % b = inp.length := by
      have := Nat.div_add_mod (inp.length - carried x inp) b
      rw [Nat.mul_comm] at this
      omega
    by_cases hl : 0 < (inp.length - carried x inp) % b
    · have hl2 : (((inp.length - carried x inp) % b : Nat) : Int) > 0 := by omega
      rw [if_pos hl2, if_pos hl]
      simp only [fill_loop]
      congr 1
      rw [← map_range_add _ _ _ _ (fun t ht => ?_), hsplit]
      exact expected_run _ _ b inp hb _ t (lt_of_lt_of_le ht (le_of_lt (Nat.mod_lt _ hb)))
    · have hl2 : ¬ (((inp.length - carried x inp) % b : Nat) : Int) > 0 := by omega
      have hfull : carried x inp + (inp.length - carried x inp) / b * b = inp.length := by
        omega
      rw [if_neg hl2, if_neg hl, hfull]
  · have hpos : ¬ ((inp.length : Int) - (carried x inp : Int) > 0) := by omega
    have hkN : carried x inp = inp.length := by omega
    rw [if_neg hpos, if_neg hlt]
    split <;> rw [hkN]

/-! ## Reading a concatenated block -/

theorem deref_append_left (A B : List α) (p : Nat) (h : p < A.length) :
    deref (A ++ B) p = deref A p := by
  simp [deref, List.getD_eq_getElem?_getD, List.getElem?_append_left h]

theorem deref_append_right (A B : List α) (p : Nat) :
    deref (A ++ B) (A.length + p) = deref B p := by
  simp [deref, List.getD_eq_getElem?_getD, List.getElem?_append_right]

theorem deref_eq_getElem? (inp : List α) (p : Nat) (h : p < inp.length) :
    inp[p]? = some (deref inp p) := by
  simp [deref, List.getD_eq_getElem?_getD, List.getElem?_eq_getElem h]

/-- Quotient and remainder from a decomposition. -/
theorem div_mod_of_eq {n b q r : Nat} (h : n = b * q + r) (hr : r < b) :
    n / b = q ∧ n % b = r := by
  have hb : 0 < b := by omega
  exact (Nat.div_mod_unique hb).mpr ⟨by omega, hr⟩

theorem mul_div_le_self (n b : Nat) : b * (n / b) ≤ n := Nat.mul_div_le n b

/-! ## Splitting a block in two: the output -/

theorem expected_append_left (cn : Nat) (v : α) (b : Nat) (A B : List α) (i : Nat)
    (hi : i < A.length) :
    expected (min cn (A.length + B.length)) v b (A ++ B) i =
      expected (min cn A.length) v b A i := by
  unfold expected
  by_cases h : i < min cn A.length
  · have h2 : i < min cn (A.length + B.length) := by omega
    rw [if_pos h, if_pos h2]
  · have hk : min cn A.length = cn := by omega
    have hk2 : min cn (A.length + B.length) = cn := by omega
    rw [hk] at h
    rw [hk, hk2, if_neg h, if_neg h]
    apply deref_append_left
    have := mul_div_le_self (i - cn) b
    omega

theorem expected_append_carry (cn : Nat) (v w : α) (b : Nat) (A B : List α) (j : Nat)
    (hA : A.length ≤ cn) (hw : A.length < cn → w = v) :
    expected (min cn (A.length + B.length)) v b (A ++ B) (A.length + j) =
      expected (min (cn - A.length) B.length) w b B j := by
  unfold expected
  have hk : min cn (A.length + B.length) = A.length + min (cn - A.length) B.length := by omega
  rw [hk]
  by_cases h : j < min (cn - A.length) B.length
  · have h2 : A.length + j < A.length + min (cn - A.length) B.length := by omega
    rw [if_pos h, if_pos h2, hw (by omega)]
  · have h2 : ¬ (A.length + j < A.length + min (cn - A.length) B.length) := by omega
    have e : A.length + j - (A.length + min (cn - A.length) B.length) =
        j - min (cn - A.length) B.length := by omega
    rw [if_neg h, if_neg h2, e, Nat.add_assoc, deref_append_right]

theorem expected_append_even (cn : Nat) (v w : α) (b : Nat) (hb : 0 < b) (A B : List α)
    (j : Nat) (hA : cn < A.length) (hl : (A.length - cn) % b = 0) :
    expected (min cn (A.length + B.length)) v b (A ++ B) (A.length + j) =
      expected 0 w b B j := by
  unfold expected
  have hk : min cn (A.length + B.length) = cn := by omega
  have h1 : ¬ (A.length + j < cn) := by omega
  have hdm := Nat.div_add_mod (A.length - cn) b
  rw [hl] at hdm
  have e : A.length + j - cn = j + b * ((A.length - cn) / b) := by omega
  rw [hk, if_neg h1, if_neg (Nat.not_lt_zero j), e, Nat.add_mul_div_left _ _ hb,
    Nat.sub_zero, Nat.zero_add, Nat.mul_add]
  have e2 : cn + (b * (j / b) + b * ((A.length - cn) / b)) = A.length + b * (j / b) := by omega
  rw [e2, deref_append_right]

theorem expected_append_odd (cn : Nat) (v : α) (b : Nat) (hb : 0 < b) (A B : List α)
    (j : Nat) (hj : j < B.length) (hA : cn < A.length) (hl : 0 < (A.length - cn) % b) :
    expected (min cn (A.length + B.length)) v b (A ++ B) (A.length + j) =
      expected (min (b - (A.length - cn) % b) B.length)
        (deref A (cn + (A.length - cn) / b * b)) b B j := by
  unfold expected
  have hk : min cn (A.length + B.length) = cn := by omega
  have h1 : ¬ (A.length + j < cn) := by omega
  have hdm := Nat.div_add_mod (A.length - cn) b
  have hlt := Nat.mod_lt (A.length - cn) hb
  rw [hk, if_neg h1]
  by_cases h : j < min (b - (A.length - cn) % b) B.length
  · rw [if_pos h]
    have e : A.length + j - cn = b * ((A.length - cn) / b) + ((A.length - cn) % b + j) := by
      omega
    have hc := Nat.mul_comm b ((A.length - cn) / b)
    rw [(div_mod_of_eq e (by omega)).1, hc, deref_append_left]
    omega
  · rw [if_neg h]
    have hkB : min (b - (A.length - cn) % b) B.length = b - (A.length - cn) % b := by omega
    rw [hkB] at h ⊢
    have e : A.length + j - cn =
        (j - (b - (A.length - cn) % b)) + b * ((A.length - cn) / b + 1) := by
      rw [Nat.mul_add]; omega
    rw [e, Nat.add_mul_div_left _ _ hb, Nat.mul_add, Nat.mul_add]
    have e2 : cn + (b * ((j - (b - (A.length - cn) % b)) / b) +
        (b * ((A.length - cn) / b) + b * 1)) =
        A.length + (b - (A.length - cn) % b + b * ((j - (b - (A.length - cn) % b)) / b)) := by
      omega
    rw [e2, deref_append_right]

/-! ## Splitting a block in two: the object -/

theorem perform_block_fst (b : Nat) (hb : 0 < b) (x : t_bitcrusherr_tilde α) (inp : List α) :
    (perform_block (b : Int) x inp).1 = next_object b x inp := by
  rw [perform_block_eq b hb]; rfl

theorem perform_block_snd (b : Nat) (hb : 0 < b) (x : t_bitcrusherr_tilde α) (inp : List α) :
    (perform_block (b : Int) x inp).2 =
      (List.range inp.length).map (expected (carried x inp) x.buffer_carry_sample_value b inp) := by
  rw [perform_block_eq b hb]

theorem next_object_outlast (b : Nat) (f : t_float) (v : α) (cn : Nat) (A : List α)
    (hI : A.length < cn) :
    next_object b ⟨f, v, (cn : Int)⟩ A = ⟨f, v, ((cn - A.length : Nat) : Int)⟩ := by
  have h1 : ¬ (min cn A.length < A.length) := by omega
  have h2 : (cn : Int) > (A.length : Int) := by omega
  simp only [next_object, carried_mk, if_neg h1, if_pos h2]
  congr 1; omega

theorem next_object_exact (b : Nat) (f : t_float) (v : α) (cn : Nat) (A : List α)
    (hE : cn = A.length) :
    next_object b ⟨f, v, (cn : Int)⟩ A = ⟨f, 0, 0⟩ := by
  have h1 : ¬ (min cn A.length < A.length) := by omega
  have h2 : ¬ ((cn : Int) > (A.length : Int)) := by omega
  simp only [next_object, carried_mk, if_neg h1, if_neg h2]

theorem next_object_odd (b : Nat) (hb : 0 < b) (f : t_float) (v : α) (cn : Nat) (A : List α)
    (hII : cn < A.length) (hl : 0 < (A.length - cn) % b) :
    next_object b ⟨f, v, (cn : Int)⟩ A =
      ⟨f, deref A (cn + (A.length - cn) / b * b), ((b - (A.length - cn) % b : Nat) : Int)⟩ := by
  have hkA : min cn A.length = cn := by omega
  have hlt : (A.length - cn) % b < b := Nat.mod_lt _ hb
  simp only [next_object, carried_mk, hkA, if_pos hII, if_pos hl]
  congr 1; omega

theorem next_object_even (b : Nat) (f : t_float) (v : α) (cn : Nat) (A : List α)
    (hII : cn < A.length) (hl : ¬ 0 < (A.length - cn) % b) :
    next_object b ⟨f, v, (cn : Int)⟩ A = ⟨f, 0, 0⟩ := by
  have hkA : min cn A.length = cn := by omega
  simp only [next_object, carried_mk, hkA, if_pos hII, if_neg hl]

theorem next_object_append (b : Nat) (hb : 0 < b) (f : t_float) (v : α) (cn : Nat)
    (A B : List α) :
    next_object b ⟨f, v, (cn : Int)⟩ (A ++ B) =
      next_object b (next_object b ⟨f, v, (cn : Int)⟩ A) B := by
  rcases Nat.lt_or_ge A.length cn with hI | hI
  · -- the carry outlasts the first block
    have hA := next_object_outlast b f v cn A hI
    rw [hA]
    simp only [next_object, carried_mk, List.length_append]
    have hk : min cn (A.length + B.length) = A.length + min (cn - A.length) B.length := by omega
    rw [hk]
    by_cases hB : min (cn - A.length) B.length < B.length
    · have hB2 : A.length + min (cn - A.length) B.length < A.length + B.length := by omega
      have e : A.length + B.length - (A.length + min (cn - A.length) B.length) =
          B.length - min (cn - A.length) B.length := by omega
      rw [if_pos hB, if_pos hB2, e, Nat.add_assoc, deref_append_right]
    · have hB2 : ¬ (A.length + min (cn - A.length) B.length < A.length + B.length) := by omega
      rw [if_neg hB, if_neg hB2]
      by_cases hgt : cn > A.length + B.length
      · have h3 : (cn : Int) > ((A.length + B.length : Nat) : Int) := by omega
        have h4 : ((cn - A.length : Nat) : Int) > (B.length : Int) := by omega
        rw [if_pos h3, if_pos h4]
        congr 1; omega
      · have h3 : ¬ ((cn : Int) > ((A.length + B.length : Nat) : Int)) := by omega
        have h4 : ¬ (((cn - A.length : Nat) : Int) > (B.length : Int)) := by omega
        rw [if_neg h3, if_neg h4]
  · rcases Nat.eq_or_lt_of_le hI with hE | hII
    · -- the carry ends exactly with the first block
      have hA := next_object_exact b f v cn A hE
      rw [hA]
      have hc0 : carried (⟨f, 0, 0⟩ : t_bitcrusherr_tilde α) B = 0 := by simp [carried]
      simp only [next_object, carried_mk, hc0, List.length_append]
      have hk : min cn (A.length + B.length) = A.length := by omega
      rw [hk]
      by_cases hB : 0 < B.length
      · have hB2 : A.length < A.length + B.length := by omega
        have e : A.length + B.length - A.length = B.length := by omega
        rw [if_pos hB, if_pos hB2, e, Nat.sub_zero, deref_append_right, Nat.zero_add]
      · have hB2 : ¬ (A.length < A.length + B.length) := by omega
        have h3 : ¬ ((cn : Int) > ((A.length + B.length : Nat) : Int)) := by omega
        have h4 : ¬ ((0 : Int) > (B.length : Int)) := by omega
        rw [if_neg hB, if_neg hB2, if_neg h3, if_neg h4]
    · -- the first block runs past the carry
      have hdm := Nat.div_add_mod (A.length - cn) b
      have hlt := Nat.mod_lt (A.length - cn) hb
      have hcm := Nat.mul_comm b ((A.length - cn) / b)
      have h1 : min cn A.length < A.length := by omega
      have hkA : min cn A.length = cn := by omega
      have hk : min cn (A.length + B.length) = cn := by omega
      have hlt2 : cn < A.length + B.length := by omega
      by_cases hl : 0 < (A.length - cn) % b
      · -- ... and ends inside a run
        have hA := next_object_odd b hb f v cn A hII hl
        rw [hA]
        simp only [next_object, carried_mk, List.length_append, hk, if_pos hlt2]
        by_cases hB : min (b - (A.length - cn) % b) B.length < B.length
        · have hkB : min (b - (A.length - cn) % b) B.length = b - (A.length - cn) % b := by
            omega
          have hdmB := Nat.div_add_mod (B.length - (b - (A.length - cn) % b)) b
          have hltB := Nat.mod_lt (B.length - (b - (A.length - cn) % b)) hb
          have e : A.length + B.length - cn =
              b * ((A.length - cn) / b + 1 + (B.length - (b - (A.length - cn) % b)) / b) +
                (B.length - (b - (A.length - cn) % b)) % b := by
            rw [Nat.mul_add, Nat.mul_add]; omega
          obtain ⟨ed, em⟩ := div_mod_of_eq e hltB
          rw [if_pos hB, hkB, ed, em]
          have e2 : cn + ((A.length - cn) / b + 1 +
              (B.length - (b - (A.length - cn) % b)) / b) * b =
              A.length + (b - (A.length - cn) % b +
                (B.length - (b - (A.length - cn) % b)) / b * b) := by
            rw [Nat.add_mul, Nat.add_mul]; omega
          rw [e2, deref_append_right]
        · have hkB : min (b - (A.length - cn) % b) B.length = B.length := by omega
          rw [if_neg hB]
          by_cases hgt : B.length < b - (A.length - cn) % b
          · have e : A.length + B.length - cn =
                b * ((A.length - cn) / b) + ((A.length - cn) % b + B.length) := by omega
            obtain ⟨ed, em⟩ := div_mod_of_eq e (by omega)
            have h5 : 0 < (A.length - cn) % b + B.length := by omega
            have h6 : ((b - (A.length - cn) % b : Nat) : Int) > (B.length : Int) := by omega
            rw [ed, em, if_pos h5, if_pos h6, deref_append_left _ _ _ (by omega)]
            congr 1; omega
          · have e : A.length + B.length - cn = b * ((A.length - cn) / b + 1) + 0 := by
              rw [Nat.mul_add]; omega
            obtain ⟨ed, em⟩ := div_mod_of_eq e hb
            have h6 : ¬ (((b - (A.length - cn) % b : Nat) : Int) > (B.length : Int)) := by
              omega
            rw [em, if_neg (Nat.lt_irrefl 0), if_neg h6]
      · -- ... and ends with a full run
        have hl0 : (A.length - cn) % b = 0 := by omega
        have hA := next_object_even b f v cn A hII hl
        rw [hA]
        have hc0 : carried (⟨f, 0, 0⟩ : t_bitcrusherr_tilde α) B = 0 := by simp [carried]
        simp only [next_object, carried_mk, hc0, List.length_append, hk, if_pos hlt2,
          Nat.sub_zero, Nat.zero_add]
        have hdmB := Nat.div_add_mod B.length b
        have hltB := Nat.mod_lt B.length hb
        have e : A.length + B.length - cn =
            b * ((A.length - cn) / b + B.length / b) + B.length % b := by
          rw [Nat.mul_add]; omega
        obtain ⟨ed, em⟩ := div_mod_of_eq e hltB
        rw [ed, em]
        by_cases hB : 0 < B.length
        · have e2 : cn + ((A.length - cn) / b + B.length / b) * b =
              A.length + B.length / b * b := by
            rw [Nat.add_mul]; omega
          rw [if_pos hB, e2, deref_append_right]
        · have hB0 : B.length = 0 := by omega
          have h4 : ¬ ((0 : Int) > (B.length : Int)) := by omega
          rw [if_neg hB, if_neg h4, hB0, Nat.zero_mod, if_neg (Nat.lt_irrefl 0)]

theorem output_append (b : Nat) (hb : 0 < b) (f : t_float) (v : α) (cn : Nat)
    (A B : List α) :
    (List.range (A.length + B.length)).map
        (expected (min cn (A.length + B.length)) v b (A ++ B)) =
      (List.range A.length).map (expected (min cn A.length) v b A) ++
        (List.range B.length).map
          (expected (carried (next_object b ⟨f, v, (cn : Int)⟩ A) B)
            (next_object b ⟨f, v, (cn : Int)⟩ A).buffer_carry_sample_value b B) := by
  apply map_range_append
  · intro i hi
    exact expected_append_left cn v b A B i hi
  · intro j hj
    rcases Nat.lt_or_ge A.length cn with hI | hI
    · rw [next_object_outlast b f v cn A hI, carried_mk]
      exact expected_append_carry cn v v b A B j (le_of_lt hI) (fun _ => rfl)
    · rcases Nat.eq_or_lt_of_le hI with hE | hII
      · rw [next_object_exact b f v cn A hE]
        have hc0 : carried (⟨f, 0, 0⟩ : t_bitcrusherr_tilde α) B = 0 := by simp [carried]
        have h := expected_append_carry cn v 0 b A B j (le_of_eq hE.symm) (fun h => by omega)
        rw [h, hc0]
        congr 1
        omega
      · by_cases hl : 0 < (A.length - cn) % b
        · rw [next_object_odd b hb f v cn A hII hl, carried_mk]
          exact expected_append_odd cn v b hb A B j hj hII hl
        · rw [next_object_even b f v cn A hII hl]
          have hc0 : carried (⟨f, 0, 0⟩ : t_bitcrusherr_tilde α) B = 0 := by simp [carried]
          rw [hc0]
          exact expected_append_even cn v 0 b hb A B j hII (by omega)

/-- Processing `A` and then `B` is processing `A ++ B`, for a positive batch size and a
carry count that is not negative. -/
theorem perform_block_append (b : Nat) (hb : 0 < b) (x : t_bitcrusherr_tilde α)
    (hc : 0 ≤ x.buffer_carry_sample_count) (A B : List α) :
    perform_block (b : Int) x (A ++ B) =
      ((perform_block (b : Int) (perform_block (b : Int) x A).1 B).1,
        (perform_block (b : Int) x A).2 ++
          (perform_block (b : Int) (perform_block (b : Int) x A).1 B).2) := by
  obtain ⟨f, v, c⟩ := x
  obtain ⟨cn, rfl⟩ := Int.eq_ofNat_of_zero_le hc
  apply Prod.ext
  · simp only [perform_block_fst b hb]
    exact next_object_append b hb f v cn A B
  · simp only [perform_block_fst b hb, perform_block_snd b hb, carried_mk, List.length_append]
    exact output_append b hb f v cn A B

/-! ## The whole call -/

theorem getElem?_expected (k : Nat) (v : α) (b : Nat) (inp : List α) (n i : Nat) (h : i < n) :
    ((List.range n).map (expected k v b inp))[i]? = some (expected k v b inp i) := by
  simp [List.getElem?_map, List.getElem?_range h]

theorem batch_size_pos {f : t_float} {b : Nat} (h : batch_size f = some (b : Int)) : 0 < b := by
  have := (batch_size_bounds h).1
  omega

/-- A call with batch size `b`, in closed form. -/
theorem perform_eq (x : t_bitcrusherr_tilde α) (inp : List α) (b : Nat)
    (hb : batch_size x.f_reduction_factor = some (b : Int)) :
    bitcrusherr_tilde_perform x inp =
      some (next_object b x inp,
        (List.range inp.length).map
          (expected (carried x inp) x.buffer_carry_sample_value b inp)) := by
  have hpos := batch_size_pos hb
  unfold bitcrusherr_tilde_perform
  rw [hb, Option.map_some', perform_block_eq b hpos]
  rfl

theorem next_object_factor (b : Nat) (x : t_bitcrusherr_tilde α) (inp : List α) :
    (next_object b x inp).f_reduction_factor = x.f_reduction_factor := by
  unfold next_object
  split_ifs <;> rfl

theorem next_object_count_nonneg (b : Nat) (hb : 0 < b) (x : t_bitcrusherr_tilde α)
    (inp : List α) :
    0 ≤ (next_object b x inp).buffer_carry_sample_count := by
  unfold next_object
  have := Nat.mod_lt (inp.length - carried x inp) hb
  split_ifs <;> simp only <;> omega

/-- Two consecutive calls are one call on the concatenated block. -/
theorem perform_append (x : t_bitcrusherr_tilde α) (A B : List α) (b : Nat)
    (hb : batch_size x.f_reduction_factor = some (b : Int))
    (hc : 0 ≤ x.buffer_carry_sample_count) :
    bitcrusherr_tilde_perform x (A ++ B) =
      (bitcrusherr_tilde_perform x A).bind fun r =>
        (bitcrusherr_tilde_perform r.1 B).map fun r2 => (r2.1, r.2 ++ r2.2) := by
  have hpos := batch_size_pos hb
  have h1 : bitcrusherr_tilde_perform x A = some (perform_block (b : Int) x A) := by
    simp [bitcrusherr_tilde_perform, hb]
  have hf : (perform_block (b : Int) x A).1.f_reduction_factor = x.f_reduction_factor := by
    rw [perform_block_fst b hpos, next_object_factor]
  have h2 : bitcrusherr_tilde_perform (perform_block (b : Int) x A).1 B =
      some (perform_block (b : Int) (perform_block (b : Int) x A).1 B) := by
    simp [bitcrusherr_tilde_perform, hf, hb]
  have h3 : bitcrusherr_tilde_perform x (A ++ B) = some (perform_block (b : Int) x (A ++ B)) := by
    simp [bitcrusherr_tilde_perform, hb]
  rw [h3, h1, Option.some_bind, h2, Option.map_some', perform_block_append b hpos x hc]

/-- A non-empty sequence of calls is one call on the concatenation of the blocks. -/
theorem perform_stream_cons (b : Nat) (rest : List (List α)) :
    ∀ (x : t_bitcrusherr_tilde α) (blk : List α),
      batch_size x.f_reduction_factor = some (b : Int) →
      0 ≤ x.buffer_carry_sample_count →
      perform_stream x (blk :: rest) = bitcrusherr_tilde_perform x (blk ++ rest.flatten) := by
  induction rest with
  | nil =>
    intro x blk hb _
    rw [perform_stream, perform_eq x blk b hb]
    simp [perform_stream, perform_eq x blk b hb]
  | cons blk2 rest ih =>
    intro x blk hb hc
    have hpos := batch_size_pos hb
    rw [List.flatten_cons, perform_append x blk _ b hb hc, perform_stream,
      perform_eq x blk b hb]
    simp only [Option.some_bind]
    rw [ih _ blk2 (by rw [next_object_factor]; exact hb)
      (next_object_count_nonneg b hpos x blk)]

/-! ## Concrete batch sizes -/

theorem batch_size_zero : batch_size (.finite 0) = some 1 := by
  rw [batch_size_finite]
  have h : round_half_away 0 = 0 := by
    unfold round_half_away
    rw [if_pos (le_refl 0), Int.floor_eq_iff]
    norm_num
  rw [h]
  simp [INT_MIN, INT_MAX]

theorem round_half_away_intCast (z : Int) : round_half_away (z : ℚ) = z := by
  unfold round_half_away
  split
  · rw [Int.floor_eq_iff]
    constructor <;> linarith
  · rw [← Int.cast_neg, neg_eq_iff_eq_neg, Int.floor_eq_iff]
    constructor <;> linarith

theorem batch_size_three : batch_size (.finite 3) = some 3 := by
  have h : round_half_away (3 : ℚ) = 3 := by exact_mod_cast round_half_away_intCast 3
  rw [batch_size_finite, h]
  simp [INT_MIN, INT_MAX]

/-! ## The properties of the specification: the batch size of a factor -/

/-- C4, refuted as stated: the factor -3 is negative, and the batch size computed for it
is 3, not 1. -/
theorem degenerate_clamp_counterexample :
    (-3 : ℚ) < 0 ∧ batch_size (.finite (-3)) = some 3 ∧ batch_size (.finite (-3)) ≠ some 1 := by
  have h : round_half_away (-3 : ℚ) = -3 := by exact_mod_cast round_half_away_intCast (-3)
  have hb : batch_size (.finite (-3)) = some 3 := by
    rw [batch_size_finite, h]
    simp [INT_MIN, INT_MAX]
  refine ⟨by norm_num, hb, ?_⟩
  rw [hb]
  simp

/-- C4, amended: for every factor that is 0 or rounds to 0, the batch size that the
routine computes is exactly 1. -/
theorem degenerate_clamp (f : t_float) (h : roundf f = .finite 0) :
    batch_size f = some 1 := by
  unfold batch_size
  rw [h]
  have h0 : float_to_int (.finite 0) = some 0 := by
    have := float_to_int_intCast 0
    simpa [INT_MIN, INT_MAX] using this
  rw [h0, Option.some_bind, int_abs_eq]
  simp [INT_MIN]

theorem roundf_of_small (q : ℚ) (h1 : -(1 / 2) < q) (h2 : q < 1 / 2) :
    roundf (.finite q) = .finite 0 := by
  have h : round_half_away q = 0 := by
    unfold round_half_away
    split
    · rw [Int.floor_eq_iff]; constructor <;> norm_num <;> linarith
    · rw [neg_eq_zero, Int.floor_eq_iff]; constructor <;> norm_num <;> linarith
  simp [roundf, h]

/-- Witness of C4: the factor -1/4 rounds to 0 and gets batch size 1. -/
theorem degenerate_clamp_witness :
    roundf (.finite (-(1 / 4))) = .finite 0 ∧ batch_size (.finite (-(1 / 4))) = some 1 :=
  ⟨roundf_of_small _ (by norm_num) (by norm_num),
    degenerate_clamp _ (roundf_of_small _ (by norm_num) (by norm_num))⟩

/-- C5, refuted as stated: the factor 2147483648 (2^31, a float) has
`max(1, round(|factor|)) = 2147483648`, which no `int` holds; line 76 has no result. -/
theorem batch_size_formula_counterexample :
    spec_batch_size 2147483648 = 2147483648 ∧
      batch_size (.finite 2147483648) ≠ some (spec_batch_size 2147483648) := by
  have h : round_half_away (2147483648 : ℚ) = 2147483648 := by
    exact_mod_cast round_half_away_intCast 2147483648
  have hs : spec_batch_size 2147483648 = 2147483648 := by
    unfold spec_batch_size
    rw [abs_of_nonneg (by norm_num), h]
    rfl
  refine ⟨hs, ?_⟩
  rw [batch_size_finite, h]
  simp [INT_MIN, INT_MAX]

/-- C5, amended: for every finite factor whose rounded absolute value fits an `int`
(`round(|factor|) ≤ 2147483647`), the batch size that the routine uses equals
`max(1, round(|factor|))`, rounding half away from zero. -/
theorem batch_size_formula (q : ℚ) (h : round_half_away |q| ≤ INT_MAX) :
    batch_size (.finite q) = some (spec_batch_size q) := by
  rw [round_half_away_abs] at h
  have hr : INT_MIN < round_half_away q ∧ round_half_away q ≤ INT_MAX := by
    simp only [INT_MIN, INT_MAX] at h ⊢
    rcases abs_cases (round_half_away q) with ⟨h1, _⟩ | ⟨h1, _⟩ <;> omega
  rw [batch_size_finite, if_pos hr, spec_batch_size, round_half_away_abs]

/-- Witness of C5: the factor -5/2 has batch size 3. -/
theorem batch_size_formula_witness :
    round_half_away |(-(5 / 2) : ℚ)| ≤ INT_MAX ∧
      batch_size (.finite (-(5 / 2))) = some (spec_batch_size (-(5 / 2))) := by
  have h : round_half_away |(-(5 / 2) : ℚ)| = 3 := by
    rw [abs_of_neg (by norm_num)]
    unfold round_half_away
    rw [if_pos (by norm_num), Int.floor_eq_iff]
    norm_num
  have hle : round_half_away |(-(5 / 2) : ℚ)| ≤ INT_MAX := by
    rw [h]; decide
  exact ⟨hle, batch_size_formula _ hle⟩

/-! ## One call, read off the closed form -/

theorem output_at (x : t_bitcrusherr_tilde α) (in1 : List α) (b c : Nat)
    (hc : x.buffer_carry_sample_count = (c : Int)) :
    (∀ i : Nat, i < min c in1.length →
      ((List.range in1.length).map
        (expected (carried x in1) x.buffer_carry_sample_value b in1))[i]? =
          some x.buffer_carry_sample_value) ∧
    (∀ i : Nat, c ≤ i → i < in1.length →
      ((List.range in1.length).map
        (expected (carried x in1) x.buffer_carry_sample_value b in1))[i]? =
          in1[c + b * ((i - c) / b)]?) := by
  have hk : carried x in1 = min c in1.length := by simp [carried, hc]
  constructor
  · intro i hi
    rw [hk, getElem?_expected _ _ _ _ _ _ (by omega)]
    simp [expected, hi]
  · intro i hci hi
    have hle := mul_div_le_self (i - c) b
    have hmin : min c in1.length = c := by omega
    rw [hk, getElem?_expected _ _ _ _ _ _ hi, deref_eq_getElem? in1 _ (by omega), hmin]
    simp [expected, Nat.not_lt.mpr hci]

theorem next_object_cut (x : t_bitcrusherr_tilde α) (in1 : List α) (b c : Nat) (hpos : 0 < b)
    (hc : x.buffer_carry_sample_count = (c : Int)) (hcN : c < in1.length)
    (hl : 0 < (in1.length - c) % b) :
    next_object b x in1 =
      { x with
        buffer_carry_sample_count := (((b - (in1.length - c) % b : Nat)) : Int)
        buffer_carry_sample_value := deref in1 (in1.length - (in1.length - c) % b) } := by
  have hk : carried x in1 = c := by simp [carried, hc]; omega
  have hdm := Nat.div_add_mod (in1.length - c) b
  have hlt := Nat.mod_lt (in1.length - c) hpos
  have hcm := Nat.mul_comm b ((in1.length - c) / b)
  have hstart : c + (in1.length - c) / b * b = in1.length - (in1.length - c) % b := by omega
  simp only [next_object, hk, if_pos hcN, if_pos hl, hstart]
  congr 1
  omega

theorem output_cut (x : t_bitcrusherr_tilde α) (in1 : List α) (b c : Nat) (hpos : 0 < b)
    (hc : x.buffer_carry_sample_count = (c : Int)) (hcN : c < in1.length) (i : Nat)
    (hi : in1.length - (in1.length - c) % b ≤ i) (hiN : i < in1.length) :
    ((List.range in1.length).map
      (expected (carried x in1) x.buffer_carry_sample_value b in1))[i]? =
        some (deref in1 (in1.length - (in1.length - c) % b)) := by
  have hk : carried x in1 = c := by simp [carried, hc]; omega
  have hdm := Nat.div_add_mod (in1.length - c) b
  have hlt := Nat.mod_lt (in1.length - c) hpos
  have hcm := Nat.mul_comm b ((in1.length - c) / b)
  have hstart : c + (in1.length - c) / b * b = in1.length - (in1.length - c) % b := by omega
  have e : i = c + (in1.length - c) / b * b + (i - (in1.length - (in1.length - c) % b)) := by
    omega
  rw [hk, getElem?_expected _ _ _ _ _ _ hiN, e, expected_run c _ b in1 hpos _ _ (by omega),
    hstart]

theorem next_object_even_block (f : t_float) (in1 : List α) (b : Nat)
    (hmod : in1.length % b = 0) :
    next_object b (⟨f, 0, 0⟩ : t_bitcrusherr_tilde α) in1 = ⟨f, 0, 0⟩ := by
  have hk : carried (⟨f, 0, 0⟩ : t_bitcrusherr_tilde α) in1 = 0 := by simp [carried]
  simp only [next_object, hk, Nat.sub_zero, hmod, if_neg (Nat.lt_irrefl 0)]
  split_ifs with h1 h2
  · rfl
  · exact absurd h2 (by omega)
  · rfl

theorem output_even_block (in1 : List α) (b : Nat) (hpos : 0 < b) (k j : Nat)
    (hk : k < in1.length / b) (hj : j < b) :
    ((List.range in1.length).map (expected 0 (0 : α) b in1))[k * b + j]? = in1[k * b]? := by
  have hlt : k * b + j < in1.length := by
    have h1 : (k + 1) * b ≤ in1.length / b * b := Nat.mul_le_mul_right b hk
    have h2 := Nat.div_mul_le_self in1.length b
    rw [Nat.add_mul] at h1
    omega
  have hidx : k * b < in1.length := by omega
  rw [getElem?_expected _ _ _ _ _ _ hlt, deref_eq_getElem? in1 _ hidx]
  have := expected_run 0 (0 : α) b in1 hpos k j hj
  simp only [Nat.zero_add] at this
  rw [this]

theorem carried_zero (f : t_float) (in1 : List α) :
    carried (⟨f, 0, 0⟩ : t_bitcrusherr_tilde α) in1 = 0 := by
  simp [carried]

/-! ## The properties of the specification: streams and single calls -/

/-- C1: for every factor with batch size `b`, every input stream and every way of
cutting it into consecutive blocks (of any lengths, empty blocks included), processing
the blocks in order from the zeroed carry state `{0, 0}` yields outputs whose
concatenation is as long as the stream and holds, at every global index `i`, the
stream's input sample at global index `b * floor(i / b)`. -/
theorem stream_correct (f : t_float) (b : Nat) (hb : batch_size f = some (b : Int))
    (blocks : List (List α)) :
    ∃ r, perform_stream (⟨f, 0, 0⟩ : t_bitcrusherr_tilde α) blocks = some r ∧
      r.2.length = blocks.flatten.length ∧
      ∀ i : Nat, i < blocks.flatten.length → r.2[i]? = blocks.flatten[b * (i / b)]? := by
  cases blocks with
  | nil => exact ⟨_, rfl, rfl, fun i hi => absurd hi (by simp)⟩
  | cons blk rest =>
    have hs := perform_stream_cons b rest (⟨f, 0, 0⟩ : t_bitcrusherr_tilde α) blk hb
      (le_refl _)
    rw [← List.flatten_cons, perform_eq _ _ b hb] at hs
    refine ⟨_, hs, by simp, ?_⟩
    intro i hi
    have h := (output_at (⟨f, 0, 0⟩ : t_bitcrusherr_tilde α) (blk :: rest).flatten b 0 rfl).2
      i (Nat.zero_le i) hi
    simpa using h

/-- Witness of C1: factor 3 and a stream of eleven samples cut into five blocks, one of
them empty. -/
theorem stream_correct_witness :
    batch_size (.finite 3) = some ((3 : Nat) : Int) ∧
    ∃ r, perform_stream (⟨.finite 3, 0, 0⟩ : t_bitcrusherr_tilde Int)
        [[1, 2], [3], [], [4, 5, 6, 7, 8, 9, 10], [11]] = some r ∧
      r.2.length = [[1, 2], [3], [], [4, 5, 6, 7, 8, 9, 10], [11]].flatten.length ∧
      ∀ i : Nat, i < [[1, 2], [3], [], [4, 5, 6, 7, 8, 9, 10], [11]].flatten.length →
        r.2[i]? = ([[1, 2], [3], [], [4, 5, 6, 7, 8, 9, 10], [11]] : List (List Int)).flatten[3 * (i / 3)]? :=
  ⟨batch_size_three, stream_correct (.finite 3) 3 batch_size_three _⟩

/-- C2: for every carry state with count `c ≥ 0` and value `v`, every input block and
every factor with batch size `b`, the call writes `out[i] = v` for every
`i < min(c, N)` and `out[i] = in[c + b * floor((i - c) / b)]` for every `c ≤ i < N`. -/
theorem perform_output (x : t_bitcrusherr_tilde α) (in1 : List α) (b c : Nat)
    (hb : batch_size x.f_reduction_factor = some (b : Int))
    (hc : x.buffer_carry_sample_count = (c : Int)) :
    ∃ r, bitcrusherr_tilde_perform x in1 = some r ∧
      (∀ i : Nat, i < min c in1.length → r.2[i]? = some x.buffer_carry_sample_value) ∧
      (∀ i : Nat, c ≤ i → i < in1.length → r.2[i]? = in1[c + b * ((i - c) / b)]?) :=
  ⟨_, perform_eq x in1 b hb, output_at x in1 b c hc⟩

/-- Witness of C2: factor 3, carry state `{1, 7}`, a block of eight samples. -/
theorem perform_output_witness :
    batch_size (.finite 3) = some ((3 : Nat) : Int) ∧
    ∃ r, bitcrusherr_tilde_perform (⟨.finite 3, 7, 1⟩ : t_bitcrusherr_tilde Int)
        [9, 10, 11, 12, 13, 14, 15, 16] = some r ∧
      (∀ i : Nat, i < min 1 [9, 10, 11, 12, 13, 14, 15, (16 : Int)].length →
        r.2[i]? = some 7) ∧
      (∀ i : Nat, 1 ≤ i → i < [9, 10, 11, 12, 13, 14, 15, (16 : Int)].length →
        r.2[i]? = [9, 10, 11, 12, 13, 14, 15, (16 : Int)][1 + 3 * ((i - 1) / 3)]?) :=
  ⟨batch_size_three, perform_output ⟨.finite 3, 7, 1⟩ _ 3 1 batch_size_three rfl⟩

theorem perform_first_block :
    bitcrusherr_tilde_perform (⟨.finite 3, 0, 0⟩ : t_bitcrusherr_tilde Int)
        [1, 2, 3, 4, 5, 6, 7, 8] =
      some (⟨.finite 3, 7, 1⟩, [1, 1, 1, 4, 4, 4, 7, 7]) := by
  unfold bitcrusherr_tilde_perform
  rw [batch_size_three]
  rfl

theorem perform_second_block :
    bitcrusherr_tilde_perform (⟨.finite 3, 7, 1⟩ : t_bitcrusherr_tilde Int)
        [9, 10, 11, 12, 13, 14, 15, 16] =
      some (⟨.finite 3, 16, 2⟩, [7, 10, 10, 10, 13, 13, 13, 16]) := by
  unfold bitcrusherr_tilde_perform
  rw [batch_size_three]
  rfl

/-- C3, refuted as stated: with factor 3, the block `[1..8]` ends with a partial run of
length 2 and value 7; in the next block `[9..16]` the first output is 7 and the run
after it repeats 10, the input sample at index 1, not the input sample at index 0,
which is 9. -/
theorem carry_across_blocks_counterexample :
    bitcrusherr_tilde_perform (⟨.finite 3, 0, 0⟩ : t_bitcrusherr_tilde Int)
        [1, 2, 3, 4, 5, 6, 7, 8] =
      some (⟨.finite 3, 7, 1⟩, [1, 1, 1, 4, 4, 4, 7, 7]) ∧
    bitcrusherr_tilde_perform (⟨.finite 3, 7, 1⟩ : t_bitcrusherr_tilde Int)
        [9, 10, 11, 12, 13, 14, 15, 16] =
      some (⟨.finite 3, 16, 2⟩, [7, 10, 10, 10, 13, 13, 13, 16]) ∧
    ([7, 10, 10, 10, 13, 13, 13, 16] : List Int)[1]? = some 10 ∧
    ([9, 10, 11, 12, 13, 14, 15, 16] : List Int)[0]? = some 9 ∧
    ([7, 10, 10, 10, 13, 13, 13, 16] : List Int)[1]? ≠
      ([9, 10, 11, 12, 13, 14, 15, 16] : List Int)[0]? :=
  ⟨perform_first_block, perform_second_block, rfl, rfl, by decide⟩

/-- C3, amended: for every batch size `b`, if block 1 (processed from a carry count
`0 ≤ c < N1`) ends with a partial run of length `L = (N1 - c) mod b`, `0 < L < b`, whose
value `V` is the input sample of block 1 at index `N1 - L`, then in block 2, processed
next with the same factor and longer than `b - L`, the first `b - L` outputs equal `V`,
and the run immediately following starts at input position `b - L` of block 2: its
repeated value is the input sample of block 2 at index `b - L`. -/
theorem carry_across_blocks (x : t_bitcrusherr_tilde α) (in1 in2 : List α) (b c L : Nat)
    (hb : batch_size x.f_reduction_factor = some (b : Int))
    (hc : x.buffer_carry_sample_count = (c : Int)) (hcN : c < in1.length)
    (hL : (in1.length - c) % b = L) (hL0 : 0 < L) (hN2 : b - L < in2.length) :
    L < b ∧
    ∃ r1 r2, bitcrusherr_tilde_perform x in1 = some r1 ∧
      bitcrusherr_tilde_perform r1.1 in2 = some r2 ∧
      (∀ i : Nat, in1.length - L ≤ i → i < in1.length → r1.2[i]? = in1[in1.length - L]?) ∧
      (∀ i : Nat, i < b - L → r2.2[i]? = in1[in1.length - L]?) ∧
      (∀ i : Nat, b - L ≤ i → i < b - L + b → i < in2.length → r2.2[i]? = in2[b - L]?) := by
  have hpos := batch_size_pos hb
  have hlt : L < b := by rw [← hL]; exact Nat.mod_lt _ hpos
  have hLN : L ≤ in1.length - c := by rw [← hL]; exact Nat.mod_le _ _
  subst hL
  have hobj := next_object_cut x in1 b c hpos hc hcN hL0
  have hV := deref_eq_getElem? in1 (in1.length - (in1.length - c) % b) (by omega)
  have hb2 : batch_size (next_object b x in1).f_reduction_factor = some (b : Int) := by
    rw [next_object_factor]; exact hb
  have hc2 : (next_object b x in1).buffer_carry_sample_count =
      ((b - (in1.length - c) % b : Nat) : Int) := by rw [hobj]
  have hv2 : (next_object b x in1).buffer_carry_sample_value =
      deref in1 (in1.length - (in1.length - c) % b) := by rw [hobj]
  obtain ⟨o1, o2⟩ := output_at (next_object b x in1) in2 b (b - (in1.length - c) % b) hc2
  refine ⟨hlt, _, _, perform_eq x in1 b hb, perform_eq _ in2 b hb2, ?_, ?_, ?_⟩
  · intro i hi hiN
    rw [hV]
    exact output_cut x in1 b c hpos hc hcN i hi hiN
  · intro i hi
    rw [hV, ← hv2]
    exact o1 i (by omega)
  · intro i hi hi2 hiN
    have h := o2 i hi hiN
    rw [Nat.div_eq_of_lt (by omega), Nat.mul_zero, Nat.add_zero] at h
    exact h

/-- Witness of C3: factor 3, blocks `[1..8]` and `[9..16]`, `L = 2`. -/
theorem carry_across_blocks_witness :
    batch_size (.finite 3) = some ((3 : Nat) : Int) ∧
    (2 : Nat) < 3 ∧
    ∃ r1 r2, bitcrusherr_tilde_perform (⟨.finite 3, 0, 0⟩ : t_bitcrusherr_tilde Int)
        [1, 2, 3, 4, 5, 6, 7, 8] = some r1 ∧
      bitcrusherr_tilde_perform r1.1 [9, 10, 11, 12, 13, 14, 15, 16] = some r2 ∧
      (∀ i : Nat, [1, 2, 3, 4, 5, 6, 7, (8 : Int)].length - 2 ≤ i →
        i < [1, 2, 3, 4, 5, 6, 7, (8 : Int)].length →
        r1.2[i]? = [1, 2, 3, 4, 5, 6, 7, (8 : Int)][[1, 2, 3, 4, 5, 6, 7, (8 : Int)].length - 2]?) ∧
      (∀ i : Nat, i < 3 - 2 →
        r2.2[i]? = [1, 2, 3, 4, 5, 6, 7, (8 : Int)][[1, 2, 3, 4, 5, 6, 7, (8 : Int)].length - 2]?) ∧
      (∀ i : Nat, 3 - 2 ≤ i → i < 3 - 2 + 3 →
        i < [9, 10, 11, 12, 13, 14, 15, (16 : Int)].length →
        r2.2[i]? = [9, 10, 11, 12, 13, 14, 15, (16 : Int)][3 - 2]?) :=
  ⟨batch_size_three,
    carry_across_blocks ⟨.finite 3, 0, 0⟩ [1, 2, 3, 4, 5, 6, 7, 8]
      [9, 10, 11, 12, 13, 14, 15, 16] 3 0 2 batch_size_three rfl (by decide) (by decide)
      (by decide) (by decide)⟩

/-- C7: for every factor whose batch size `b` divides `N`, the call from the carry state
`{0, 0}` outputs exactly `N / b` runs of length `b`, run `k` (0-based) holding
`in[k * b]` at every one of its positions, and the carry state after the call is again
`{0, 0}`. -/
theorem perform_even_block (f : t_float) (in1 : List α) (b : Nat)
    (hb : batch_size f = some (b : Int)) (hdiv : b ∣ in1.length) :
    ∃ out, bitcrusherr_tilde_perform ⟨f, 0, 0⟩ in1 = some (⟨f, 0, 0⟩, out) ∧
      out.length = in1.length / b * b ∧
      ∀ k j : Nat, k < in1.length / b → j < b → out[k * b + j]? = in1[k * b]? := by
  have hpos := batch_size_pos hb
  refine ⟨(List.range in1.length).map (expected 0 (0 : α) b in1), ?_, ?_, ?_⟩
  · rw [perform_eq _ in1 b hb, next_object_even_block f in1 b (Nat.mod_eq_zero_of_dvd hdiv),
      carried_zero]
  · simp [Nat.div_mul_cancel hdiv]
  · intro k j hk hj
    exact output_even_block in1 b hpos k j hk hj

/-- Witness of C7: factor 3 and a block of six samples. -/
theorem perform_even_block_witness :
    batch_size (.finite 3) = some ((3 : Nat) : Int) ∧ 3 ∣ [1, 2, 3, 4, 5, (6 : Int)].length ∧
    ∃ out, bitcrusherr_tilde_perform (⟨.finite 3, 0, 0⟩ : t_bitcrusherr_tilde Int)
        [1, 2, 3, 4, 5, 6] = some (⟨.finite 3, 0, 0⟩, out) ∧
      out.length = [1, 2, 3, 4, 5, (6 : Int)].length / 3 * 3 ∧
      ∀ k j : Nat, k < [1, 2, 3, 4, 5, (6 : Int)].length / 3 → j < 3 →
        out[k * 3 + j]? = [1, 2, 3, 4, 5, (6 : Int)][k * 3]? :=
  ⟨batch_size_three, by decide,
    perform_even_block (.finite 3) [1, 2, 3, 4, 5, 6] 3 batch_size_three (by decide)⟩

/-- C9: for every call with carry count `c ≥ N` (also `N = 0`), all `N` outputs equal the
carry value and no input sample influences the result (any block of the same length
gives the same result); afterwards the carry count is `c - N`, the carry value is
unchanged when `c > N`, and both are 0 when `c = N`. -/
theorem perform_carry_only (x : t_bitcrusherr_tilde α) (in1 : List α) (b : Int)
    (hb : batch_size x.f_reduction_factor = some b)
    (hc : (in1.length : Int) ≤ x.buffer_carry_sample_count) :
    ∃ r, bitcrusherr_tilde_perform x in1 = some r ∧
      r.2 = List.replicate in1.length x.buffer_carry_sample_value ∧
      r.1.buffer_carry_sample_count = x.buffer_carry_sample_count - in1.length ∧
      ((in1.length : Int) < x.buffer_carry_sample_count →
        r.1.buffer_carry_sample_value = x.buffer_carry_sample_value) ∧
      (x.buffer_carry_sample_count = in1.length →
        r.1.buffer_carry_sample_count = 0 ∧ r.1.buffer_carry_sample_value = 0) ∧
      ∀ in2 : List α, in2.length = in1.length →
        bitcrusherr_tilde_perform x in2 = some r := by
  have h1 := (batch_size_bounds hb).1
  obtain ⟨bn, rfl⟩ := Int.eq_ofNat_of_zero_le (by omega : 0 ≤ b)
  have key : ∀ inp : List α, inp.length = in1.length →
      bitcrusherr_tilde_perform x inp =
        some (if x.buffer_carry_sample_count > in1.length then
            { x with buffer_carry_sample_count := x.buffer_carry_sample_count - in1.length }
          else { x with buffer_carry_sample_count := 0, buffer_carry_sample_value := 0 },
          List.replicate in1.length x.buffer_carry_sample_value) := by
    intro inp hlen
    have hk : carried x inp = inp.length := by simp [carried]; omega
    rw [perform_eq x inp bn hb, hk, ← replicate_eq_expected]
    simp only [next_object, hk, if_neg (Nat.lt_irrefl _), hlen]
  refine ⟨_, key in1 rfl, rfl, ?_, ?_, ?_, key⟩
  · split_ifs with h
    · rfl
    · simp only; omega
  · intro h
    rw [if_pos h]
  · intro h
    have : ¬ (x.buffer_carry_sample_count > (in1.length : Int)) := by omega
    rw [if_neg this]
    exact ⟨rfl, rfl⟩

/-- Witness of C9: factor 3, carry state `{5, 7}`, a block of two samples. -/
theorem perform_carry_only_witness :
    batch_size (.finite 3) = some 3 ∧ (([9, (10 : Int)].length : Nat) : Int) ≤ 5 ∧
    ∃ r, bitcrusherr_tilde_perform (⟨.finite 3, 7, 5⟩ : t_bitcrusherr_tilde Int) [9, 10] =
        some r ∧
      r.2 = List.replicate [9, (10 : Int)].length 7 ∧
      r.1.buffer_carry_sample_count = 5 - (([9, (10 : Int)].length : Nat) : Int) ∧
      (((([9, (10 : Int)].length : Nat) : Int) < 5 → r.1.buffer_carry_sample_value = 7)) ∧
      ((5 : Int) = (([9, (10 : Int)].length : Nat) : Int) →
        r.1.buffer_carry_sample_count = 0 ∧ r.1.buffer_carry_sample_value = 0) ∧
      ∀ in2 : List Int, in2.length = [9, (10 : Int)].length →
        bitcrusherr_tilde_perform (⟨.finite 3, 7, 5⟩ : t_bitcrusherr_tilde Int) in2 = some r :=
  ⟨batch_size_three, by decide,
    perform_carry_only ⟨.finite 3, 7, 5⟩ [9, 10] 3 batch_size_three (by decide)⟩

/-- C10: for every factor whose batch size is 1 (for example 0) and every input block,
the call from the carry state `{0, 0}` returns the input block unchanged and leaves the
carry state `{0, 0}`. -/
theorem perform_pass_through (f : t_float) (in1 : List α) (hb : batch_size f = some 1) :
    bitcrusherr_tilde_perform ⟨f, 0, 0⟩ in1 = some (⟨f, 0, 0⟩, in1) := by
  have hb1 : batch_size f = some ((1 : Nat) : Int) := by simpa using hb
  rw [perform_eq _ in1 1 hb1, next_object_even_block f in1 1 (Nat.mod_one _), carried_zero]
  congr 2
  apply List.ext_getElem?
  intro i
  by_cases hi : i < in1.length
  · have := output_even_block in1 1 Nat.one_pos i 0 (by simpa using hi) Nat.one_pos
    simpa using this
  · have h1 : in1.length ≤ i := by omega
    rw [List.getElem?_eq_none h1, List.getElem?_eq_none (by simpa using h1)]

/-- Witness of C10: factor 0 passes the block `[4, 5, 6]` through. -/
theorem perform_pass_through_witness :
    batch_size (.finite 0) = some 1 ∧
    bitcrusherr_tilde_perform (⟨.finite 0, 0, 0⟩ : t_bitcrusherr_tilde Int) [4, 5, 6] =
      some (⟨.finite 0, 0, 0⟩, [4, 5, 6]) :=
  ⟨batch_size_zero, perform_pass_through (.finite 0) [4, 5, 6] batch_size_zero⟩

/-! ## The sign of the factor -/

theorem batch_size_not_finite_inf (s : Bool) : batch_size (.inf s) = none := by
  simp [batch_size, roundf, float_to_int]

theorem batch_size_nan : batch_size .nan = none := by
  simp [batch_size, roundf, float_to_int]

/-- C11: for every factor, the batch size computed for `factor` equals the batch size
computed for `-factor` (and line 76 has a result for the one exactly when it has one
for the other). -/
theorem batch_size_sign_symmetry (f : t_float) : batch_size f = batch_size (float_neg f) := by
  cases f with
  | finite q =>
    rw [float_neg, batch_size_finite, batch_size_finite, round_half_away_neg, abs_neg]
    have hiff : (INT_MIN < -round_half_away q ∧ -round_half_away q ≤ INT_MAX) ↔
        (INT_MIN < round_half_away q ∧ round_half_away q ≤ INT_MAX) := by
      simp only [INT_MIN, INT_MAX]
      constructor <;> intro h <;> constructor <;> omega
    by_cases h : INT_MIN < round_half_away q ∧ round_half_away q ≤ INT_MAX
    · rw [if_pos h, if_pos (hiff.mpr h)]
    · rw [if_neg h, if_neg (fun h2 => h (hiff.mp h2))]
  | inf s => rw [float_neg, batch_size_not_finite_inf, batch_size_not_finite_inf]
  | nan => rfl

/-! ## Sequences of calls with changing factors -/

theorem perform_some (x : t_bitcrusherr_tilde α) (in1 : List α)
    (r : t_bitcrusherr_tilde α × List α) (h : bitcrusherr_tilde_perform x in1 = some r) :
    ∃ b : Nat, batch_size x.f_reduction_factor = some (b : Int) ∧ 0 < b ∧
      r = (next_object b x in1,
        (List.range in1.length).map
          (expected (carried x in1) x.buffer_carry_sample_value b in1)) := by
  cases hb : batch_size x.f_reduction_factor with
  | none => simp [bitcrusherr_tilde_perform, hb] at h
  | some b =>
    have h1 := (batch_size_bounds hb).1
    obtain ⟨bn, rfl⟩ := Int.eq_ofNat_of_zero_le (by omega : 0 ≤ b)
    refine ⟨bn, rfl, batch_size_pos hb, ?_⟩
    rw [perform_eq x in1 bn hb] at h
    exact (Option.some.inj h).symm

theorem next_object_count_le (b : Nat) (x : t_bitcrusherr_tilde α)
    (inp : List α) (hc : 0 ≤ x.buffer_carry_sample_count) :
    (next_object b x inp).buffer_carry_sample_count ≤ x.buffer_carry_sample_count ∨
      (next_object b x inp).buffer_carry_sample_count ≤ (b : Int) := by
  unfold next_object
  split_ifs
  · right; simp only; omega
  · left; exact hc
  · left; simp only; omega
  · left; exact hc

theorem next_object_clean (b : Nat) (hb : 0 < b) (x : t_bitcrusherr_tilde α)
    (inp : List α) (h0 : (next_object b x inp).buffer_carry_sample_count = 0) :
    (next_object b x inp).buffer_carry_sample_value = 0 := by
  have hlt := Nat.mod_lt (inp.length - carried x inp) hb
  unfold next_object at h0 ⊢
  split_ifs at h0 ⊢
  · simp only at h0; omega
  · rfl
  · simp only at h0; omega
  · rfl

theorem perform_calls_count (calls : List (t_float × List α)) :
    ∀ x x1 : t_bitcrusherr_tilde α, perform_calls x calls = some x1 →
      0 ≤ x.buffer_carry_sample_count →
      0 ≤ x1.buffer_carry_sample_count ∧
        (x1.buffer_carry_sample_count ≤ x.buffer_carry_sample_count ∨
          ∃ c ∈ calls, ∃ b : Int, batch_size c.1 = some b ∧
            x1.buffer_carry_sample_count ≤ b) := by
  induction calls with
  | nil =>
    intro x x1 h hc
    simp only [perform_calls, Option.some.injEq] at h
    subst h
    exact ⟨hc, Or.inl (le_refl _)⟩
  | cons c rest ih =>
    intro x x1 h hc
    rw [perform_calls] at h
    cases hr : bitcrusherr_tilde_perform { x with f_reduction_factor := c.1 } c.2 with
    | none => rw [hr] at h; simp at h
    | some r =>
      rw [hr, Option.some_bind] at h
      obtain ⟨b, hb, hpos, rfl⟩ := perform_some _ _ _ hr
      have hstep := next_object_count_le b { x with f_reduction_factor := c.1 } c.2 hc
      have hnn := next_object_count_nonneg b hpos { x with f_reduction_factor := c.1 } c.2
      obtain ⟨h1, h2⟩ := ih _ x1 h hnn
      refine ⟨h1, ?_⟩
      rcases h2 with h2 | ⟨c2, hc2, b2, hb2, hle⟩
      · rcases hstep with h3 | h3
        · left; exact le_trans h2 h3
        · right; exact ⟨c, List.mem_cons_self _ _, b, hb, le_trans h2 h3⟩
      · right; exact ⟨c2, List.mem_cons_of_mem _ hc2, b2, hb2, hle⟩

theorem perform_calls_defined (calls : List (t_float × List α)) :
    ∀ x x1 : t_bitcrusherr_tilde α, perform_calls x calls = some x1 →
      ∀ c ∈ calls, ∃ b : Int, batch_size c.1 = some b ∧ 1 ≤ b := by
  induction calls with
  | nil => intro x x1 _ c hc; simp at hc
  | cons c rest ih =>
    intro x x1 h c2 hc2
    rw [perform_calls] at h
    cases hr : bitcrusherr_tilde_perform { x with f_reduction_factor := c.1 } c.2 with
    | none => rw [hr] at h; simp at h
    | some r =>
      rw [hr, Option.some_bind] at h
      rcases List.mem_cons.mp hc2 with rfl | hmem
      · obtain ⟨b, hb, hpos, _⟩ := perform_some _ _ _ hr
        exact ⟨b, hb, by omega⟩
      · exact ih _ x1 h c2 hmem

theorem perform_calls_clean (calls : List (t_float × List α)) :
    ∀ x x1 : t_bitcrusherr_tilde α, perform_calls x calls = some x1 →
      (x.buffer_carry_sample_count = 0 → x.buffer_carry_sample_value = 0) →
      x1.buffer_carry_sample_count = 0 → x1.buffer_carry_sample_value = 0 := by
  induction calls with
  | nil =>
    intro x x1 h hx
    simp only [perform_calls, Option.some.injEq] at h
    subst h
    exact hx
  | cons c rest ih =>
    intro x x1 h _
    rw [perform_calls] at h
    cases hr : bitcrusherr_tilde_perform { x with f_reduction_factor := c.1 } c.2 with
    | none => rw [hr] at h; simp at h
    | some r =>
      rw [hr, Option.some_bind] at h
      obtain ⟨b, hb, hpos, rfl⟩ := perform_some _ _ _ hr
      exact ih _ x1 h (next_object_clean b hpos _ c.2)

theorem perform_short_block :
    bitcrusherr_tilde_perform (⟨.finite 3, 7, 1⟩ : t_bitcrusherr_tilde Int) [9] =
      some (⟨.finite 3, 0, 0⟩, [7]) := by
  unfold bitcrusherr_tilde_perform
  rw [batch_size_three]
  rfl

theorem perform_calls_one :
    perform_calls (bitcrusherr_tilde_new (.finite 0) : t_bitcrusherr_tilde Int)
        [(.finite 3, [1, 2, 3, 4, 5, 6, 7, 8])] = some ⟨.finite 3, 7, 1⟩ := by
  have h : ({ (bitcrusherr_tilde_new (.finite 0) : t_bitcrusherr_tilde Int) with
      f_reduction_factor := .finite 3 } : t_bitcrusherr_tilde Int) = ⟨.finite 3, 0, 0⟩ := rfl
  simp only [perform_calls, h, perform_first_block, Option.some_bind]

theorem perform_calls_two :
    perform_calls (bitcrusherr_tilde_new (.finite 0) : t_bitcrusherr_tilde Int)
        [(.finite 3, [1, 2, 3, 4, 5, 6, 7, 8]), (.finite 3, [9])] = some ⟨.finite 3, 0, 0⟩ := by
  have h : ({ (bitcrusherr_tilde_new (.finite 0) : t_bitcrusherr_tilde Int) with
      f_reduction_factor := .finite 3 } : t_bitcrusherr_tilde Int) = ⟨.finite 3, 0, 0⟩ := rfl
  have h2 : ({ (⟨.finite 3, 7, 1⟩ : t_bitcrusherr_tilde Int) with
      f_reduction_factor := .finite 3 } : t_bitcrusherr_tilde Int) = ⟨.finite 3, 7, 1⟩ := rfl
  simp only [perform_calls, h, h2, perform_first_block, perform_short_block, Option.some_bind]

/-! ## The properties of the specification: reachable objects -/

/-- C13: in every object reachable from the constructed (zeroed) one by any sequence of
calls, a carry count of 0 implies a carry value of 0. -/
theorem clean_carry (f0 : t_float) (calls : List (t_float × List α))
    (x1 : t_bitcrusherr_tilde α)
    (h : perform_calls (bitcrusherr_tilde_new f0) calls = some x1)
    (h0 : x1.buffer_carry_sample_count = 0) :
    x1.buffer_carry_sample_value = 0 :=
  perform_calls_clean calls _ x1 h (fun _ => rfl) h0

/-- Witness of C13: after `[1..8]` and then `[9]` with factor 3 the carry, which was
`{1, 7}` in between, is `{0, 0}`. -/
theorem clean_carry_witness :
    perform_calls (bitcrusherr_tilde_new (.finite 0) : t_bitcrusherr_tilde Int)
        [(.finite 3, [1, 2, 3, 4, 5, 6, 7, 8]), (.finite 3, [9])] = some ⟨.finite 3, 0, 0⟩ ∧
    (⟨.finite 3, 0, 0⟩ : t_bitcrusherr_tilde Int).buffer_carry_sample_count = 0 ∧
    (⟨.finite 3, 0, 0⟩ : t_bitcrusherr_tilde Int).buffer_carry_sample_value = 0 :=
  ⟨perform_calls_two, rfl,
    clean_carry (.finite 0) [(.finite 3, [1, 2, 3, 4, 5, 6, 7, 8]), (.finite 3, [9])]
      ⟨.finite 3, 0, 0⟩ perform_calls_two rfl⟩

/-- C17: for every initial reduction-factor value `f`, the newly constructed object has
reduction factor `f`, carry count 0 and carry value 0. -/
theorem new_object (f : t_float) :
    (bitcrusherr_tilde_new f : t_bitcrusherr_tilde α).f_reduction_factor = f ∧
      (bitcrusherr_tilde_new f : t_bitcrusherr_tilde α).buffer_carry_sample_count = 0 ∧
      (bitcrusherr_tilde_new f : t_bitcrusherr_tilde α).buffer_carry_sample_value = 0 :=
  ⟨rfl, rfl, rfl⟩

/-! ## The properties of the specification: the scenario, the frame, the blocks -/

/-- C14: with factor 3 and carry state `{0, 0}`, the block `[1, 2, 3, 4, 5, 6, 7, 8]`
gives the output `[1, 1, 1, 4, 4, 4, 7, 7]` and the carry `{count 1, value 7}`; from
that state and with factor 3 the block `[9, 10, 11, 12, 13, 14, 15, 16]` gives the
output `[7, 10, 10, 10, 13, 13, 13, 16]` and the carry `{count 2, value 16}`. -/
theorem two_block_scenario :
    bitcrusherr_tilde_perform (⟨.finite 3, 0, 0⟩ : t_bitcrusherr_tilde Int)
        [1, 2, 3, 4, 5, 6, 7, 8] =
      some ({ f_reduction_factor := .finite 3, buffer_carry_sample_value := 7,
              buffer_carry_sample_count := 1 }, [1, 1, 1, 4, 4, 4, 7, 7]) ∧
    bitcrusherr_tilde_perform
        ({ f_reduction_factor := .finite 3, buffer_carry_sample_value := 7,
           buffer_carry_sample_count := 1 } : t_bitcrusherr_tilde Int)
        [9, 10, 11, 12, 13, 14, 15, 16] =
      some ({ f_reduction_factor := .finite 3, buffer_carry_sample_value := 16,
              buffer_carry_sample_count := 2 }, [7, 10, 10, 10, 13, 13, 13, 16]) :=
  ⟨perform_first_block, perform_second_block⟩

/-! ## The division of lines 107 and 110 -/

/-- With a zero divisor the fallible routine has no result as soon as a sample is left
after the carried ones. -/
theorem perform_block_checked_zero :
    perform_block_checked 0 (⟨.finite 0, 0, 0⟩ : t_bitcrusherr_tilde Int) [1, 2, 3] = none := by
  rfl

theorem next_object_set_factor (b : Nat) (x : t_bitcrusherr_tilde α) (f : t_float)
    (inp : List α) :
    next_object b { x with f_reduction_factor := f } inp =
      { next_object b x inp with f_reduction_factor := f } := by
  have hk : carried { x with f_reduction_factor := f } inp = carried x inp := rfl
  unfold next_object
  rw [hk]
  split_ifs <;> rfl

/-- C19: for every object, block and factor (of batch size `b`), a call changes only
the carry count and the carry value: the stored reduction factor after the call is the
one before it.  The factor is read only to compute the batch size: with any other
stored factor of the same batch size the call gives the same output, carry count and
carry value. -/
theorem perform_frame (x : t_bitcrusherr_tilde α) (in1 : List α) (b : Int)
    (hb : batch_size x.f_reduction_factor = some b) :
    ∃ r, bitcrusherr_tilde_perform x in1 = some r ∧
      r.1.f_reduction_factor = x.f_reduction_factor ∧
      ∀ f : t_float, batch_size f = some b →
        bitcrusherr_tilde_perform { x with f_reduction_factor := f } in1 =
          some ({ r.1 with f_reduction_factor := f }, r.2) := by
  have h1 := (batch_size_bounds hb).1
  obtain ⟨bn, rfl⟩ := Int.eq_ofNat_of_zero_le (by omega : 0 ≤ b)
  refine ⟨_, perform_eq x in1 bn hb, next_object_factor bn x in1, ?_⟩
  intro f hf
  rw [perform_eq { x with f_reduction_factor := f } in1 bn hf, next_object_set_factor]
  rfl

/-- Witness of C19: factor 0 (batch size 1), carry state `{5, 7}`, a block of two
samples. -/
theorem perform_frame_witness :
    batch_size (.finite 0) = some 1 ∧
    ∃ r, bitcrusherr_tilde_perform (⟨.finite 0, 7, 5⟩ : t_bitcrusherr_tilde Int) [9, 10] =
        some r ∧
      r.1.f_reduction_factor = .finite 0 ∧
      ∀ f : t_float, batch_size f = some 1 →
        bitcrusherr_tilde_perform
            ({ (⟨.finite 0, 7, 5⟩ : t_bitcrusherr_tilde Int) with f_reduction_factor := f })
            [9, 10] =
          some ({ r.1 with f_reduction_factor := f }, r.2) :=
  ⟨batch_size_zero, perform_frame ⟨.finite 0, 7, 5⟩ [9, 10] 1 batch_size_zero⟩


/-! ## The compiled routine -/

theorem float_to_int_machine_intCast (z : Int) :
    float_to_int_machine (.finite (z : ℚ)) = if INT_MIN ≤ z ∧ z ≤ INT_MAX then z else INT_MIN := by
  simp [float_to_int_machine]

theorem int_abs_machine_of_lt {v : Int} (h1 : INT_MIN < v) (h2 : v ≤ INT_MAX) :
    int_abs_machine v = |v| := by
  simp only [INT_MIN, INT_MAX] at h1 h2
  unfold int_abs_machine wrap_int
  by_cases h0 : v < 0
  · rw [if_pos h0, abs_of_neg h0]; omega
  · rw [if_neg h0, abs_of_nonneg (by omega)]; omega

theorem int_abs_machine_int_min : int_abs_machine INT_MIN = INT_MIN := by
  decide

/-- The batch size of a finite factor as compiled, in closed form. -/
theorem batch_size_machine_finite (q : ℚ) :
    batch_size_machine (.finite q) =
      if INT_MIN < round_half_away q ∧ round_half_away q ≤ INT_MAX
      then max 1 |round_half_away q| else INT_MIN := by
  unfold batch_size_machine
  simp only [roundf, float_to_int_machine_intCast]
  by_cases h : INT_MIN < round_half_away q ∧ round_half_away q ≤ INT_MAX
  · have h2 : INT_MIN ≤ round_half_away q ∧ round_half_away q ≤ INT_MAX :=
      ⟨le_of_lt h.1, h.2⟩
    simp only [if_pos h, if_pos h2, int_abs_machine_of_lt h.1 h.2]
    have := abs_nonneg (round_half_away q)
    split_ifs with h4
    · rw [h4]; rfl
    · omega
  · have hmin : int_abs_machine INT_MIN = INT_MIN := int_abs_machine_int_min
    have hne : ¬ (INT_MIN = 0) := by decide
    by_cases h2 : INT_MIN ≤ round_half_away q ∧ round_half_away q ≤ INT_MAX
    · have h3 : round_half_away q = INT_MIN := by
        rcases lt_or_eq_of_le h2.1 with h3 | h3
        · exact absurd (And.intro h3 h2.2) h
        · exact h3.symm
      rw [h3] at h ⊢
      simp only [ite_self, hmin, if_neg hne, if_neg h]
    · simp only [if_neg h, if_neg h2, hmin, if_neg hne]

theorem batch_size_machine_of_some {f : t_float} {b : Int} (h : batch_size f = some b) :
    batch_size_machine f = b := by
  cases f with
  | finite q =>
    rw [batch_size_finite] at h
    rw [batch_size_machine_finite]
    split at h
    · rename_i hr
      rw [if_pos hr]
      exact Option.some.inj h
    · simp at h
  | inf s => simp [batch_size, roundf, float_to_int] at h
  | nan => simp [batch_size, roundf, float_to_int] at h

theorem batch_size_machine_of_none {f : t_float} (h : batch_size f = none) :
    batch_size_machine f = INT_MIN := by
  cases f with
  | finite q =>
    rw [batch_size_finite] at h
    rw [batch_size_machine_finite]
    split at h
    · simp at h
    · rename_i hr
      rw [if_neg hr]
  | inf s => rfl
  | nan => rfl

/-- Where C defines line 76 the compiled routine is the routine. -/
theorem perform_machine_eq (x : t_bitcrusherr_tilde α) (in1 : List α) (b : Int)
    (hb : batch_size x.f_reduction_factor = some b) :
    bitcrusherr_tilde_perform x in1 = some (bitcrusherr_tilde_perform_machine x in1) := by
  unfold bitcrusherr_tilde_perform bitcrusherr_tilde_perform_machine
  rw [hb, batch_size_machine_of_some hb, Option.map_some']

/-- With the batch size `INT_MIN` every sample after the carried ones repeats the first
of them, as long as the block length is an `int`. -/
theorem perform_block_int_min_length (x : t_bitcrusherr_tilde α) (inp : List α)
    (hN : (inp.length : Int) ≤ INT_MAX) :
    (perform_block INT_MIN x inp).2.length = inp.length := by
  have hk : carried x inp ≤ inp.length := Nat.min_le_right _ _
  have hcur : (if x.buffer_carry_sample_count ≤ (inp.length : Int)
      then x.buffer_carry_sample_count else (inp.length : Int)).toNat = carried x inp := by
    unfold carried
    split <;> omega
  simp only [INT_MAX] at hN
  unfold perform_block
  simp only [for_loop, hcur, carry_loop, List.nil_append, Nat.zero_add]
  by_cases hlt : carried x inp < inp.length
  · have hpos : (inp.length : Int) - (carried x inp : Int) > 0 := by omega
    have hdiv : ((inp.length : Int) - (carried x inp : Int)).tdiv INT_MIN = 0 := by
      have e : INT_MIN = -2147483648 := rfl
      rw [e, Int.tdiv_neg, Int.tdiv_eq_zero_of_lt (by omega) (by omega)]
      rfl
    have hmod : ((inp.length : Int) - (carried x inp : Int)).tmod INT_MIN =
        (inp.length : Int) - (carried x inp : Int) := by
      have e : INT_MIN = -2147483648 := rfl
      rw [e, Int.tmod_neg, Int.tmod_eq_of_lt (by omega) (by omega)]
    rw [if_pos hpos, hdiv, hmod, if_pos hpos]
    simp only [Int.toNat_zero, Function.iterate_zero, id_eq, fill_loop, List.length_append,
      List.length_replicate]
    omega
  · have hpos : ¬ ((inp.length : Int) - (carried x inp : Int) > 0) := by omega
    rw [if_neg hpos]
    split <;> simp only [List.length_replicate] <;> omega

theorem perform_machine_length (x : t_bitcrusherr_tilde α) (in1 : List α)
    (hN : batch_size x.f_reduction_factor = none → (in1.length : Int) ≤ INT_MAX) :
    (bitcrusherr_tilde_perform_machine x in1).2.length = in1.length := by
  cases hb : batch_size x.f_reduction_factor with
  | none =>
    unfold bitcrusherr_tilde_perform_machine
    rw [batch_size_machine_of_none hb]
    exact perform_block_int_min_length x in1 (hN hb)
  | some b =>
    have h1 := (batch_size_bounds hb).1
    obtain ⟨bn, rfl⟩ := Int.eq_ofNat_of_zero_le (by omega : 0 ≤ b)
    unfold bitcrusherr_tilde_perform_machine
    rw [batch_size_machine_of_some hb, perform_block_eq bn (batch_size_pos hb)]
    simp

theorem perform_calls_machine_eq (calls : List (t_float × List α)) :
    ∀ x : t_bitcrusherr_tilde α, (∀ c ∈ calls, ∃ b : Int, batch_size c.1 = some b) →
      perform_calls x calls = some (perform_calls_machine x calls) := by
  induction calls with
  | nil => intro x _; rfl
  | cons c rest ih =>
    intro x hdef
    obtain ⟨b, hb⟩ := hdef c (List.mem_cons_self _ _)
    rw [perform_calls, perform_calls_machine,
      perform_machine_eq { x with f_reduction_factor := c.1 } c.2 b hb, Option.some_bind]
    exact ih _ (fun c2 hc2 => hdef c2 (List.mem_cons_of_mem _ hc2))

/-! ## The properties of the specification that speak of every factor -/

/-- C6: for every `N ≥ 0`, every block of `N` input samples, every carry state and every
factor, the call as compiled produces exactly `N` output samples (for a factor to which
C gives no batch size the block length is taken to be an `int`, as the `s_n` it comes
from is); and whenever C gives line 76 a value this call is the routine's call. -/
theorem perform_length (x : t_bitcrusherr_tilde α) (in1 : List α)
    (hN : batch_size x.f_reduction_factor = none → (in1.length : Int) ≤ INT_MAX) :
    (bitcrusherr_tilde_perform_machine x in1).2.length = in1.length ∧
      ∀ b : Int, batch_size x.f_reduction_factor = some b →
        bitcrusherr_tilde_perform x in1 = some (bitcrusherr_tilde_perform_machine x in1) :=
  ⟨perform_machine_length x in1 hN, fun b hb => perform_machine_eq x in1 b hb⟩

/-- Witness of C6: a NaN factor, carry state `{0, 0}`, the block `[5, 6, 7]`. -/
theorem perform_length_witness :
    (batch_size .nan = none → ((([5, 6, 7] : List Int).length : Nat) : Int) ≤ INT_MAX) ∧
    (bitcrusherr_tilde_perform_machine (⟨.nan, 0, 0⟩ : t_bitcrusherr_tilde Int)
        [5, 6, 7]).2.length = ([5, 6, 7] : List Int).length ∧
      ∀ b : Int, batch_size .nan = some b →
        bitcrusherr_tilde_perform (⟨.nan, 0, 0⟩ : t_bitcrusherr_tilde Int) [5, 6, 7] =
          some (bitcrusherr_tilde_perform_machine (⟨.nan, 0, 0⟩ : t_bitcrusherr_tilde Int)
            [5, 6, 7]) :=
  ⟨fun _ => by decide,
    perform_length (⟨.nan, 0, 0⟩ : t_bitcrusherr_tilde Int) [5, 6, 7] (fun _ => by decide)⟩

/-- C12, refuted as stated: one call with a NaN factor on the block `[5, 6, 7]`, from
the constructed object, runs with the batch size `INT_MIN` and stores the carry count
`INT_MIN - 3 = -2147483651`, which is negative. -/
theorem carry_count_bound_counterexample :
    perform_calls_machine (bitcrusherr_tilde_new .nan : t_bitcrusherr_tilde Int)
        [(.nan, [5, 6, 7])] = ⟨.nan, 5, -2147483651⟩ ∧
      (perform_calls_machine (bitcrusherr_tilde_new .nan : t_bitcrusherr_tilde Int)
        [(.nan, [5, 6, 7])]).buffer_carry_sample_count < 0 :=
  ⟨rfl, by decide⟩

/-- C12, amended: in every object reachable from the constructed (zeroed) one by any
sequence of calls, with any block lengths and any factors to which line 76 gives a batch
size (the finite factors with `round(|factor|) ≤ 2147483647`), the carry count is at
least 0 and, once a call has been made, at most the batch size computed in one of the
calls made so far; in particular, when every call uses the same factor, of batch size
`b`, the carry count is between 0 and `b` after every call. -/
theorem carry_count_bound (f0 : t_float) (calls : List (t_float × List α))
    (hdef : ∀ c ∈ calls, ∃ b : Int, batch_size c.1 = some b) :
    perform_calls (bitcrusherr_tilde_new f0) calls =
        some (perform_calls_machine (bitcrusherr_tilde_new f0 : t_bitcrusherr_tilde α) calls) ∧
      0 ≤ (perform_calls_machine (bitcrusherr_tilde_new f0 : t_bitcrusherr_tilde α)
        calls).buffer_carry_sample_count ∧
      (calls = [] →
        (perform_calls_machine (bitcrusherr_tilde_new f0 : t_bitcrusherr_tilde α)
          calls).buffer_carry_sample_count = 0) ∧
      (calls ≠ [] → ∃ c ∈ calls, ∃ b : Int, batch_size c.1 = some b ∧
        (perform_calls_machine (bitcrusherr_tilde_new f0 : t_bitcrusherr_tilde α)
          calls).buffer_carry_sample_count ≤ b) ∧
      (∀ (f : t_float) (b : Int), (∀ c ∈ calls, c.1 = f) → batch_size f = some b →
        (perform_calls_machine (bitcrusherr_tilde_new f0 : t_bitcrusherr_tilde α)
          calls).buffer_carry_sample_count ≤ b) := by
  have h := perform_calls_machine_eq calls (bitcrusherr_tilde_new f0 : t_bitcrusherr_tilde α)
    hdef
  obtain ⟨h1, h2⟩ := perform_calls_count calls _ _ h (le_refl _)
  have hzero : (bitcrusherr_tilde_new f0 : t_bitcrusherr_tilde α).buffer_carry_sample_count = 0 :=
    rfl
  rw [hzero] at h2
  refine ⟨h, h1, ?_, ?_, ?_⟩
  · intro hnil
    subst hnil
    rfl
  · intro hne
    rcases h2 with h2 | h2
    · obtain ⟨c, rest, rfl⟩ := List.exists_cons_of_ne_nil hne
      obtain ⟨b, hb⟩ := hdef c (List.mem_cons_self _ _)
      have hb1 := (batch_size_bounds hb).1
      exact ⟨c, List.mem_cons_self _ _, b, hb, by omega⟩
    · exact h2
  · intro f b hall hb
    rcases h2 with h2 | ⟨c, hc, b2, hb2, hle⟩
    · have := (batch_size_bounds hb).1
      omega
    · rw [hall c hc, hb] at hb2
      have : b = b2 := Option.some.inj hb2
      omega

/-- Witness of C12: one call with factor 3 on `[1..8]`. -/
theorem carry_count_bound_witness :
    (∀ c ∈ ([(.finite 3, [1, 2, 3, 4, 5, 6, 7, 8])] : List (t_float × List Int)),
      ∃ b : Int, batch_size c.1 = some b) ∧
    perform_calls (bitcrusherr_tilde_new (.finite 0))
        ([(.finite 3, [1, 2, 3, 4, 5, 6, 7, 8])] : List (t_float × List Int)) =
      some (perform_calls_machine (bitcrusherr_tilde_new (.finite 0))
        [(.finite 3, [1, 2, 3, 4, 5, 6, 7, 8])]) ∧
    0 ≤ (perform_calls_machine (bitcrusherr_tilde_new (.finite 0) : t_bitcrusherr_tilde Int)
        [(.finite 3, [1, 2, 3, 4, 5, 6, 7, 8])]).buffer_carry_sample_count :=
  have hdef : ∀ c ∈ ([(.finite 3, [1, 2, 3, 4, 5, 6, 7, 8])] : List (t_float × List Int)),
      ∃ b : Int, batch_size c.1 = some b := by
    intro c hc
    rw [List.mem_singleton] at hc
    subst hc
    exact ⟨3, batch_size_three⟩
  ⟨hdef, (carry_count_bound (.finite 0) _ hdef).1, (carry_count_bound (.finite 0) _ hdef).2.1⟩

/-- C18, refuted as stated: with a NaN factor and the carry state `{0, 0}`, the block
`[1, 2]` gives `[1, 1]` and then the block `[3, 4]` gives `[3, 3]`, while the single
block `[1, 2, 3, 4]` gives `[1, 1, 1, 1]`. -/
theorem block_splitting_counterexample :
    (0 : Int) ≤ (⟨.nan, 0, 0⟩ : t_bitcrusherr_tilde Int).buffer_carry_sample_count ∧
    (bitcrusherr_tilde_perform_machine (⟨.nan, 0, 0⟩ : t_bitcrusherr_tilde Int) [1, 2]).2 =
      [1, 1] ∧
    (bitcrusherr_tilde_perform_machine
      (bitcrusherr_tilde_perform_machine (⟨.nan, 0, 0⟩ : t_bitcrusherr_tilde Int) [1, 2]).1
      [3, 4]).2 = [3, 3] ∧
    (bitcrusherr_tilde_perform_machine (⟨.nan, 0, 0⟩ : t_bitcrusherr_tilde Int)
      ([1, 2] ++ [3, 4])).2 = [1, 1, 1, 1] ∧
    ([1, 1] ++ [3, 3] : List Int) ≠ [1, 1, 1, 1] :=
  ⟨le_refl _, rfl, rfl, rfl, by decide⟩

/-- C18, amended: for every carry state with a carry count that is not negative, every
factor to which line 76 gives a batch size (the finite factors with
`round(|factor|) ≤ 2147483647`) and every two input blocks `A` and `B`, processing `A`
and then `B` with that factor produces outputs whose concatenation is the output of
processing the single block `A ++ B` from the same starting state, and both ways end in
the same object (carry count and carry value). -/
theorem block_splitting (x : t_bitcrusherr_tilde α) (A B : List α) (b : Int)
    (hb : batch_size x.f_reduction_factor = some b)
    (hc : 0 ≤ x.buffer_carry_sample_count) :
    bitcrusherr_tilde_perform_machine x (A ++ B) =
        ((bitcrusherr_tilde_perform_machine (bitcrusherr_tilde_perform_machine x A).1 B).1,
          (bitcrusherr_tilde_perform_machine x A).2 ++
            (bitcrusherr_tilde_perform_machine (bitcrusherr_tilde_perform_machine x A).1 B).2) ∧
      bitcrusherr_tilde_perform x A = some (bitcrusherr_tilde_perform_machine x A) ∧
      bitcrusherr_tilde_perform (bitcrusherr_tilde_perform_machine x A).1 B =
        some (bitcrusherr_tilde_perform_machine (bitcrusherr_tilde_perform_machine x A).1 B) ∧
      bitcrusherr_tilde_perform x (A ++ B) =
        some (bitcrusherr_tilde_perform_machine x (A ++ B)) := by
  have h1 := (batch_size_bounds hb).1
  obtain ⟨bn, rfl⟩ := Int.eq_ofNat_of_zero_le (by omega : 0 ≤ b)
  have hpos := batch_size_pos hb
  have hm : batch_size_machine x.f_reduction_factor = (bn : Int) := batch_size_machine_of_some hb
  have hA : bitcrusherr_tilde_perform_machine x A = perform_block (bn : Int) x A := by
    unfold bitcrusherr_tilde_perform_machine; rw [hm]
  have hf : (perform_block (bn : Int) x A).1.f_reduction_factor = x.f_reduction_factor := by
    rw [perform_block_fst bn hpos, next_object_factor]
  have hB : bitcrusherr_tilde_perform_machine (perform_block (bn : Int) x A).1 B =
      perform_block (bn : Int) (perform_block (bn : Int) x A).1 B := by
    unfold bitcrusherr_tilde_perform_machine; rw [hf, hm]
  have hAB : bitcrusherr_tilde_perform_machine x (A ++ B) = perform_block (bn : Int) x (A ++ B) := by
    unfold bitcrusherr_tilde_perform_machine; rw [hm]
  refine ⟨?_, perform_machine_eq x A _ hb, ?_, perform_machine_eq x (A ++ B) _ hb⟩
  · rw [hAB, hA, hB]
    exact perform_block_append bn hpos x hc A B
  · rw [hA]
    exact perform_machine_eq _ B (bn : Int) (by rw [hf]; exact hb)

/-- Witness of C18: factor 3 from `{0, 0}`, the blocks `[1..8]` and `[9..16]`. -/
theorem block_splitting_witness :
    batch_size (.finite 3) = some 3 ∧
    (0 : Int) ≤ (⟨.finite 3, 0, 0⟩ : t_bitcrusherr_tilde Int).buffer_carry_sample_count ∧
    bitcrusherr_tilde_perform_machine (⟨.finite 3, 0, 0⟩ : t_bitcrusherr_tilde Int)
        ([1, 2, 3, 4, 5, 6, 7, 8] ++ [9, 10, 11, 12, 13, 14, 15, 16]) =
      ((bitcrusherr_tilde_perform_machine
          (bitcrusherr_tilde_perform_machine (⟨.finite 3, 0, 0⟩ : t_bitcrusherr_tilde Int)
            [1, 2, 3, 4, 5, 6, 7, 8]).1 [9, 10, 11, 12, 13, 14, 15, 16]).1,
        (bitcrusherr_tilde_perform_machine (⟨.finite 3, 0, 0⟩ : t_bitcrusherr_tilde Int)
            [1, 2, 3, 4, 5, 6, 7, 8]).2 ++
          (bitcrusherr_tilde_perform_machine
            (bitcrusherr_tilde_perform_machine (⟨.finite 3, 0, 0⟩ : t_bitcrusherr_tilde Int)
              [1, 2, 3, 4, 5, 6, 7, 8]).1 [9, 10, 11, 12, 13, 14, 15, 16]).2) :=
  ⟨batch_size_three, le_refl _,
    (block_splitting (⟨.finite 3, 0, 0⟩ : t_bitcrusherr_tilde Int) [1, 2, 3, 4, 5, 6, 7, 8]
      [9, 10, 11, 12, 13, 14, 15, 16] 3 batch_size_three (le_refl _)).1⟩

end Block

end Bitcrusherr
